import Mathlib

/-!
# Verification of the kashyapa-gotra family-tree core algorithms

Shallow embedding of the generation-assignment / layout core of the
family-tree web application:

* `normalizeData`d person records (`Person`), indexed by id through the shared
  `peopleMap` (modelled by `mapGet`: a JS `Map` built by successive `set`s,
  so a later record with the same id shadows an earlier one);
* `assignGenerations` (app.js, BFS from parentless roots, first visit wins,
  unreached people default to generation 1);
* `propagateSpouseGenerations` (app.js, repeated full scans over all spousal
  edges until a scan reports no change);
* `buildDisplayUnits` (app.js, merging clean mutual 1-to-1 spouse pairs
  into couple units);
* `TreeConnector.drawSpouseConnectors` (connector.js, deduplication of
  spouse connectors by a sorted-id pair key);
* `OrgChartLayout.calculatePositions` / `render` (org-chart.js, recursive
  hierarchical placement of generation-1 roots and their descendants).

The JavaScript mutates person objects in place; here a stage maps a state
(`List Person`) to a new state, writing only the `generation` field.  The
data model declares ids unique across the dataset; theorems that depend on
the person/object correspondence carry the `Nodup` hypothesis explicitly.

The JS `while (changed)` loop of the propagator and the layout recursion
are not structurally terminating, so they take an explicit fuel argument
and return `none` when the fuel is exhausted.  The generation BFS always
terminates; it is given a fuel that dominates its step count
(`bfsFuel`, one unit per queue pop; pops are bounded by the initial queue
plus one enqueue batch per distinct visited id), and `bfsLoop_fuel_stable`
certifies that the budget is never hit.
-/

/-- A normalized person record as produced by `normalizeData`: relationship
fields are arrays of ids, `gender` is lower-cased, `generation` starts
unset (`none`) unless the raw JSON already carried a numeric value.
`payload` stands for the opaque descriptive fields (dates, notes, photo)
that the core passes through untouched. -/
structure Person where
  id : String
  name : String
  gender : String
  parents : List String
  children : List String
  spouses : List String
  generation : Option Nat
  payload : String
deriving DecidableEq, Repr

/-- `peopleMap.get i`: the people map is built by `indexPeople` with
`peopleMap.set(p.id, p)` over the list in order, so a lookup returns the
last record carrying the id (JS `Map.set` overwrites; with the unique ids
of the data model at most one record carries any id). -/
def mapGet : List Person → String → Option Person
  | [], _ => none
  | p :: rest, i =>
    match mapGet rest i with
    | some q => some q
    | none => if p.id = i then some p else none

/-- `person.generation = g` for the person object with id `i`: the in-place
field write of the JS, as a functional update of the state. -/
def setGen (people : List Person) (i : String) (g : Nat) : List Person :=
  people.map (fun p => if p.id = i then { p with generation := some g } else p)

/-- JS `p.generation || 1`: `undefined` and `0` are falsy and give 1. -/
def genOr1 (o : Option Nat) : Nat :=
  match o with
  | none => 1
  | some 0 => 1
  | some g => g

/-! ## Generation assignment (app.js `assignGenerations`) -/

/-- The BFS worklist loop of `assignGenerations`.  The JS queue holds
`{person, gen}` object references and only ever reads `person.id` and
`person.children` from them, so entries are modelled as `(id, gen)` pairs
resolved against the live state at pop time (a failed lookup is the JS
`!person` continue branch).  One fuel unit is one pop; `bfsFuel` below
always suffices (`bfsLoop_fuel_stable`).  When fuel runs out the current
state is returned unchanged. -/
def bfsLoop (fuel : Nat) (st : List Person) (visited : List String)
    (queue : List (String × Nat)) : List Person × List String :=
  match queue with
  | [] => (st, visited)
  | (pid, gen) :: rest =>
    match fuel with
    | 0 => (st, visited)
    | fuel + 1 =>
      match mapGet st pid with
      | none => bfsLoop fuel st visited rest
      | some person =>
        if visited.contains person.id then
          bfsLoop fuel st visited rest
        else
          let visited' := person.id :: visited
          let st' := setGen st person.id gen
          let enq := person.children.filterMap (fun cid =>
            match mapGet st' cid with
            | some child =>
              if visited'.contains child.id then none else some (child.id, gen + 1)
            | none => none)
          bfsLoop fuel st' visited' (rest ++ enq)

/-- Fuel that dominates the BFS step count: every pop either consumes a
queue entry without enqueueing, or marks a fresh id visited and enqueues at
most `maxChildren` entries. -/
def maxChildren (people : List Person) : Nat :=
  (people.map (fun p => p.children.length)).foldr max 0

/-- Generous fuel for `bfsLoop`: `|queue₀| + |people| * (1 + maxChildren)`. -/
def bfsFuel (people : List Person) : Nat :=
  people.length + people.length * (1 + maxChildren people) + 1

/-- The post-BFS default of `assignGenerations`: `if
(!Number.isFinite(p.generation)) p.generation = 1` — false exactly for a
record whose generation field is still unset in this model; a numeric
value already present (even 0) is kept. -/
def defaultGen1 (p : Person) : Person :=
  match p.generation with
  | none => { p with generation := some 1 }
  | some _ => p

/-- `assignGenerations(people)` (app.js lines 144-167): seed the queue with
every parentless person (the roots) at generation 1, run the BFS, then
apply the unreachable-people default. -/
def assignGenerations (people : List Person) : List Person :=
  (bfsLoop (bfsFuel people) people []
    ((people.filter (fun p => p.parents.isEmpty)).map (fun r => (r.id, 1)))).1.map
    defaultGen1

/-- The set of ids visited by the generation BFS: exactly the people
reached from a parentless root along `children` links. -/
def bfsVisited (people : List Person) : List String :=
  (bfsLoop (bfsFuel people) people []
    ((people.filter (fun p => p.parents.isEmpty)).map (fun r => (r.id, 1)))).2

/-! ## Spouse generation propagation (app.js `propagateSpouseGenerations`) -/

/-- One spousal-edge update (app.js lines 403-412): `s = peopleMap.get(sid)`,
`g = max(pg, sg)` where `pg` was read once per person before its spouse
loop (and is therefore stale if `p.generation` changed inside the loop),
then both live fields are compared with `g` and rewritten on mismatch. -/
def spouseEdgeStep (st : List Person) (pid : String) (pg : Nat) (sid : String) :
    List Person × Bool :=
  match mapGet st sid with
  | none => (st, false)
  | some s =>
    let g := max pg (genOr1 s.generation)
    let r1 : List Person × Bool :=
      if ((mapGet st pid).bind Person.generation) ≠ some g then (setGen st pid g, true)
      else (st, false)
    let r2 : List Person × Bool :=
      if ((mapGet r1.1 sid).bind Person.generation) ≠ some g then (setGen r1.1 sid g, true)
      else (r1.1, false)
    (r2.1, r1.2 || r2.2)

/-- The `for (const sid of p.spouses)` loop, with `pg` fixed at its entry
value as in the source. -/
def spousesLoop (pid : String) (pg : Nat) : List Person → List String → List Person × Bool
  | st, [] => (st, false)
  | st, sid :: rest =>
    let r1 := spouseEdgeStep st pid pg sid
    let r2 := spousesLoop pid pg r1.1 rest
    (r2.1, r1.2 || r2.2)

/-- Processing one person of the scan: read the live `p.generation` once
into `pg`, then walk the spouse list. -/
def personStep (st : List Person) (pid : String) : List Person × Bool :=
  match mapGet st pid with
  | none => (st, false)
  | some p => spousesLoop pid (genOr1 p.generation) st p.spouses

/-- One full `for (const p of people)` scan.  The array order never
changes, so the scan walks the original id sequence against the live
state. -/
def propagatePass : List Person → List String → List Person × Bool
  | st, [] => (st, false)
  | st, pid :: rest =>
    let r1 := personStep st pid
    let r2 := propagatePass r1.1 rest
    (r2.1, r1.2 || r2.2)

/-- The `while (changed)` loop, fuelled: `none` means the loop had not
reached a change-free scan within `fuel` scans. -/
def propagateLoop (ids : List String) : List Person → Nat → Option (List Person)
  | _, 0 => none
  | st, fuel + 1 =>
    let r := propagatePass st ids
    if r.2 then propagateLoop ids r.1 fuel else some r.1

/-- `propagateSpouseGenerations(people)` (app.js lines 395-415). -/
def propagateSpouseGenerations (people : List Person) (fuel : Nat) :
    Option (List Person) :=
  propagateLoop (people.map (fun p => p.id)) people fuel

/-! ## Display units (app.js `buildDisplayUnits`) -/

/-- A rendering unit: one person, or a merged mutual 1-to-1 couple.  The
`generation` component is the field stored on the unit object. -/
inductive DisplayUnit where
  | single (p : Person) (generation : Nat)
  | couple (a b : Person) (generation : Nat)
deriving DecidableEq, Repr

/-- The people appearing in a unit. -/
def unitMembers : DisplayUnit → List Person
  | .single p _ => [p]
  | .couple a b _ => [a, b]

/-- The iteration of `buildDisplayUnits` over the people array with its
`used` id set.  A couple is emitted only when `p.spouses` is the one-entry
list `[s.id]`, `s` resolves, is unused, and `s.spouses` is exactly
`[p.id]`. -/
def buildUnitsAux (people : List Person) : List Person → List String → List DisplayUnit
  | [], _ => []
  | p :: rest, used =>
    if used.contains p.id then buildUnitsAux people rest used
    else
      match p.spouses with
      | [sid] =>
        match mapGet people sid with
        | some s =>
          if ¬ used.contains s.id ∧ s.spouses = [p.id] then
            .couple p s (max (genOr1 p.generation) (genOr1 s.generation)) ::
              buildUnitsAux people rest (s.id :: p.id :: used)
          else
            .single p (genOr1 p.generation) :: buildUnitsAux people rest (p.id :: used)
        | none =>
          .single p (genOr1 p.generation) :: buildUnitsAux people rest (p.id :: used)
      | _ =>
        .single p (genOr1 p.generation) :: buildUnitsAux people rest (p.id :: used)

/-- `buildDisplayUnits(people)` (app.js lines 417-447). -/
def buildDisplayUnits (people : List Person) : List DisplayUnit :=
  buildUnitsAux people people []

/-! ## Spouse connectors (connector.js `TreeConnector.drawSpouseConnectors`) -/

/-- JS string comparison: lexicographic on code units. -/
def charListLt : List Char → List Char → Bool
  | _, [] => false
  | [], _ :: _ => true
  | a :: as, b :: bs =>
    if a.toNat < b.toNat then true
    else if b.toNat < a.toNat then false
    else charListLt as bs

/-- `a < b` on JS strings. -/
def strLt (a b : String) : Bool :=
  charListLt a.data b.data

/-- The canonical pair key `[personId, spouseId].sort().join('__')`:
JS default sort compares the two ids as strings. -/
def pairKey (a b : String) : String :=
  if strLt a b then a ++ "__" ++ b else b ++ "__" ++ a

/-- The inner spouse loop of `drawSpouseConnectors` for one card: skip
spouses without a card, skip already-drawn pair keys, otherwise record the
key and emit the connector (the geometric positions of indexed cards are
always available, so `pos1 && pos2` holds). -/
def spouseConnLoop (cards : List String) (pid : String) :
    List String → List String → List (String × String) × List String
  | [], drawn => ([], drawn)
  | sid :: rest, drawn =>
    if ¬ cards.contains sid then spouseConnLoop cards pid rest drawn
    else if drawn.contains (pairKey pid sid) then spouseConnLoop cards pid rest drawn
    else
      let r := spouseConnLoop cards pid rest (pairKey pid sid :: drawn)
      ((pid, sid) :: r.1, r.2)

/-- The outer loop over the indexed cards (`cardPositions` keys in card
order); a card whose id is not in the people map is the `!person`
continue branch. -/
def spouseConnAux (cards : List String) (people : List Person) :
    List String → List String → List (String × String)
  | [], _ => []
  | pid :: rest, drawn =>
    match mapGet people pid with
    | none => spouseConnAux cards people rest drawn
    | some person =>
      let r := spouseConnLoop cards pid person.spouses drawn
      r.1 ++ spouseConnAux cards people rest r.2

/-- `drawSpouseConnectors` (connector.js lines 137-166): the list of
emitted spouse connectors `(data-person-a, data-person-b)`, in order. -/
def drawSpouseConnectors (cards : List String) (people : List Person) :
    List (String × String) :=
  spouseConnAux cards people cards []

/-! ## Hierarchical layout (org-chart.js `OrgChartLayout`) -/

/-- Engine configuration: node box size and gaps.  The constructor picks
them from the viewport width; they stay abstract here. -/
structure LayoutConfig where
  nodeWidth : ℚ
  nodeHeight : ℚ
  verticalGap : ℚ
  horizontalGap : ℚ
deriving DecidableEq, Repr

/-- A stored position `{x, y}` (the `width`/`height` components of the JS
record always equal the engine configuration). -/
structure Pos where
  x : ℚ
  y : ℚ
deriving DecidableEq, Repr

/-- The positions map; `set` shadows earlier entries for the same id. -/
def posSet (m : List (String × Pos)) (i : String) (p : Pos) : List (String × Pos) :=
  (i, p) :: m

/-- `positions.get(id)`. -/
def posGet (m : List (String × Pos)) (i : String) : Option Pos :=
  match m with
  | [] => none
  | (j, p) :: rest => if j = i then some p else posGet rest i

/-- `positions.has(id)`. -/
def posHas (m : List (String × Pos)) (i : String) : Bool :=
  m.any (fun e => e.1 = i)

/-- `calculatePositions(roots, allPeople, peopleMap, x, y)` (script.js
lines 715-748): place each queue member at the running `currentX`, advance
by `nodeWidth + horizontalGap`, and recursively place its
currently-unpositioned resolved children centered under it one band down.
The JS recursion has no structural bound, so it is fuelled (one unit per
queue element processed); `none` reports exhaustion. -/
def calculatePositions (cfg : LayoutConfig) (people : List Person) :
    Nat → List Person → ℚ → ℚ → List (String × Pos) → Option (List (String × Pos))
  | _, [], _, _, pos => some pos
  | 0, _ :: _, _, _, _ => none
  | fuel + 1, person :: rest, x, y, pos =>
    let children := (person.children.filterMap (fun cid => mapGet people cid)).filter
      (fun c => ¬ posHas pos c.id)
    let pos1 := posSet pos person.id ⟨x, y⟩
    let next :=
      if children.length > 0 then
        let childStartX := x - (((children.length : ℚ) - 1) *
          (cfg.nodeWidth + cfg.horizontalGap)) / 2
        calculatePositions cfg people fuel children childStartX
          (y + cfg.nodeHeight + cfg.verticalGap) pos1
      else
        some pos1
    match next with
    | none => none
    | some pos2 => calculatePositions cfg people fuel rest
        (x + cfg.nodeWidth + cfg.horizontalGap) y pos2

/-- The root selection and layout call of `render` (script.js lines
686-710): roots are the people whose (defaulted) generation is 1; the
positions map is cleared and the roots laid out from the origin. -/
def layoutRender (cfg : LayoutConfig) (people : List Person) (fuel : Nat) :
    Option (List (String × Pos)) :=
  calculatePositions cfg people fuel
    (people.filter (fun p => genOr1 p.generation = 1)) 0 0 []

/-! ## Basic lemmas about the store operations -/

theorem mapGet_cons (q : Person) (rest : List Person) (i : String) :
    mapGet (q :: rest) i =
      match mapGet rest i with
      | some r => some r
      | none => if q.id = i then some q else none := rfl

theorem mapGet_id {st : List Person} {i : String} {p : Person}
    (h : mapGet st i = some p) : p.id = i := by
  induction st with
  | nil => simp [mapGet] at h
  | cons q rest ih =>
    rw [mapGet_cons] at h
    cases hr : mapGet rest i with
    | some r =>
      rw [hr] at h
      exact ih (by rw [hr]; exact h)
    | none =>
      rw [hr] at h
      by_cases hq : q.id = i
      · rw [if_pos hq] at h
        injection h with h
        rw [← h]; exact hq
      · rw [if_neg hq] at h; exact absurd h (by simp)

theorem mapGet_mem {st : List Person} {i : String} {p : Person}
    (h : mapGet st i = some p) : p ∈ st := by
  induction st with
  | nil => simp [mapGet] at h
  | cons q rest ih =>
    rw [mapGet_cons] at h
    cases hr : mapGet rest i with
    | some r =>
      rw [hr] at h
      exact List.mem_cons_of_mem _ (ih (by rw [hr]; exact h))
    | none =>
      rw [hr] at h
      by_cases hq : q.id = i
      · rw [if_pos hq] at h
        injection h with h
        rw [← h]; exact List.mem_cons_self _ _
      · rw [if_neg hq] at h; exact absurd h (by simp)

theorem mapGet_eq_none {st : List Person} {i : String}
    (h : ∀ p ∈ st, p.id ≠ i) : mapGet st i = none := by
  induction st with
  | nil => rfl
  | cons q rest ih =>
    rw [mapGet_cons, ih (fun p hp => h p (List.mem_cons_of_mem _ hp))]
    simp [h q (List.mem_cons_self _ _)]

theorem mapGet_isSome_of_mem {st : List Person} {p : Person} (h : p ∈ st) :
    (mapGet st p.id).isSome := by
  induction st with
  | nil => simp at h
  | cons q rest ih =>
    rw [mapGet_cons]
    rcases List.mem_cons.mp h with h | h
    · cases hr : mapGet rest p.id with
      | some r => simp
      | none => subst h; simp
    · cases hr : mapGet rest p.id with
      | some r => simp
      | none => have := ih h; rw [hr] at this; simp at this

/-- With unique ids, the map lookup of a member's id returns that member. -/
theorem mapGet_of_nodup {st : List Person} {p : Person}
    (hn : (st.map (fun q => q.id)).Nodup) (h : p ∈ st) :
    mapGet st p.id = some p := by
  induction st with
  | nil => simp at h
  | cons q rest ih =>
    simp only [List.map_cons, List.nodup_cons] at hn
    rcases List.mem_cons.mp h with h | h
    · subst h
      have hnone : mapGet rest p.id = none :=
        mapGet_eq_none (fun r hr hne =>
          hn.1 (hne ▸ List.mem_map.mpr ⟨r, hr, rfl⟩))
      rw [mapGet_cons, hnone]
      simp
    · have := ih hn.2 h
      rw [mapGet_cons, this]

theorem setGen_cons (q : Person) (rest : List Person) (i : String) (g : Nat) :
    setGen (q :: rest) i g =
      (if q.id = i then { q with generation := some g } else q) :: setGen rest i g := rfl

theorem setGen_map_id (st : List Person) (i : String) (g : Nat) :
    (setGen st i g).map (fun p => p.id) = st.map (fun p => p.id) := by
  induction st with
  | nil => rfl
  | cons q rest ih =>
    rw [setGen_cons, List.map_cons, List.map_cons, ih]
    by_cases hq : q.id = i <;> simp [hq]

theorem mapGet_setGen (st : List Person) (i : String) (g : Nat) (j : String) :
    mapGet (setGen st i g) j =
      (mapGet st j).map (fun p =>
        if p.id = i then { p with generation := some g } else p) := by
  induction st with
  | nil => rfl
  | cons q rest ih =>
    rw [setGen_cons, mapGet_cons, mapGet_cons, ih]
    cases hr : mapGet rest j with
    | some r => simp
    | none =>
      by_cases hq : q.id = i
      · by_cases hj : q.id = j <;> simp [hq, hj]
      · by_cases hj : q.id = j
        · have hji : ¬ j = i := fun he => hq (hj.trans he)
          simp [hq, hj, hji]
        · simp [hq, hj]

theorem mem_setGen_of_ne {st : List Person} {p : Person} (h : p ∈ st)
    (i : String) (g : Nat) (hne : p.id ≠ i) : p ∈ setGen st i g := by
  have := List.mem_map_of_mem
    (fun q => if q.id = i then { q with generation := some g } else q) h
  simpa [setGen, hne] using this

theorem mem_setGen_self {st : List Person} {p : Person} (h : p ∈ st)
    (g : Nat) : { p with generation := some g } ∈ setGen st p.id g := by
  have := List.mem_map_of_mem
    (fun q => if q.id = p.id then { q with generation := some g } else q) h
  simpa [setGen] using this

theorem of_mem_setGen {st : List Person} {i : String} {g : Nat} {q : Person}
    (h : q ∈ setGen st i g) :
    ∃ p ∈ st, q = if p.id = i then { p with generation := some g } else p := by
  rcases List.mem_map.mp h with ⟨p, hp, hq⟩
  exact ⟨p, hp, hq.symm⟩

/-! ## Claim C1: termination of the spouse-generation propagation

The scan caches `pg = p.generation || 1` before walking `p.spouses`, so a
person whose spouse list mixes a higher-generation spouse with an
equal-generation one is raised and then lowered back within one scan: the
scan reports a change but leaves the state exactly as it found it, and the
`while (changed)` loop never exits. -/

/-- Four-person dataset: root `r` with child `a` (generation 2 after BFS),
lone roots `b` and `p` (generation 1), and `p.spouses = [a, b]` (the
links are one-directional, which the data model tolerates). -/
def peopleC1 : List Person :=
  [⟨"r", "r", "", [], ["a"], [], none, ""⟩,
   ⟨"a", "a", "", ["r"], [], [], none, ""⟩,
   ⟨"b", "b", "", [], [], [], none, ""⟩,
   ⟨"p", "p", "", [], [], ["a", "b"], none, ""⟩]

/-- One scan over `peopleC1` after generation assignment flips `p` from
generation 1 to 2 (edge to `a`) and back to 1 (edge to `b`): the state is
returned unchanged with the changed flag set. -/
theorem propagatePass_peopleC1 :
    propagatePass (assignGenerations peopleC1)
        ((assignGenerations peopleC1).map (fun p => p.id)) =
      (assignGenerations peopleC1, true) := by decide

/-- Claim C1 (status: code_bug).  The claim states that for every finite
input dataset the propagation terminates within (max generation × person
count) scans.  On `peopleC1` the `while (changed)` loop of
`propagateSpouseGenerations` never terminates: however many scans the
fuelled model is allowed, it reports non-convergence, because every scan
changes `p.generation` and ends with the state it started from. -/
theorem propagateSpouseGenerations_peopleC1_diverges :
    ∀ fuel, propagateSpouseGenerations (assignGenerations peopleC1) fuel = none := by
  intro fuel
  induction fuel with
  | zero => rfl
  | succ n ih =>
    show propagateLoop _ _ (n + 1) = none
    simp only [propagateLoop, propagatePass_peopleC1]
    exact ih

/-! ## BFS invariants (for claims C3 and C4) -/

/-- An entry produced by the child-enqueue step: its id is one of the
children, it resolves in the store, is not yet visited, and carries the
parent generation plus one. -/
theorem mem_bfs_enq {st' : List Person} {visited' : List String} {gen : Nat}
    {children : List String} {e : String × Nat}
    (he : e ∈ children.filterMap (fun cid =>
      match mapGet st' cid with
      | some child =>
        if visited'.contains child.id then none else some (child.id, gen + 1)
      | none => none)) :
    e.1 ∈ children ∧ e.2 = gen + 1 ∧ visited'.contains e.1 = false ∧
      ∃ child, mapGet st' e.1 = some child := by
  rcases List.mem_filterMap.mp he with ⟨cid, hcid, hf⟩
  split at hf
  · rename_i child hc
    split at hf
    · exact absurd hf (by simp)
    · rename_i hv
      injection hf with h
      subst h
      have hid : child.id = cid := mapGet_id hc
      exact ⟨by simpa [hid] using hcid, rfl, by simpa using hv, child,
        by rw [hid]; exact hc⟩
  · exact absurd hf (by simp)

/-- Generation values written by the BFS come from the queue: if every
queued generation is at least 1 and every present generation is unset or
at least 1, that stays true. -/
theorem bfsLoop_gens_ok :
    ∀ fuel st visited queue st' vis',
      bfsLoop fuel st visited queue = (st', vis') →
      (∀ p ∈ st, p.generation = none ∨ ∃ g, p.generation = some g ∧ 1 ≤ g) →
      (∀ e ∈ queue, 1 ≤ e.2) →
      ∀ p ∈ st', p.generation = none ∨ ∃ g, p.generation = some g ∧ 1 ≤ g := by
  intro fuel
  induction fuel with
  | zero =>
    intro st visited queue st' vis' heq hst hq
    cases queue with
    | nil => cases heq; exact hst
    | cons e rest => obtain ⟨pid, gen⟩ := e; cases heq; exact hst
  | succ f ih =>
    intro st visited queue st' vis' heq hst hq
    cases queue with
    | nil => cases heq; exact hst
    | cons e rest =>
      obtain ⟨pid, gen⟩ := e
      simp only [bfsLoop] at heq
      split at heq
      · exact ih _ _ _ _ _ heq hst (fun e he => hq e (List.mem_cons_of_mem _ he))
      · rename_i person hm
        split at heq
        · exact ih _ _ _ _ _ heq hst (fun e he => hq e (List.mem_cons_of_mem _ he))
        · apply ih _ _ _ _ _ heq
          · intro p hp
            rcases of_mem_setGen hp with ⟨p₀, hp₀, hpe⟩
            by_cases hpid : p₀.id = person.id
            · right
              refine ⟨gen, ?_, hq _ (List.mem_cons_self _ _)⟩
              rw [hpe, if_pos hpid]
            · rw [hpe, if_neg hpid]
              exact hst p₀ hp₀
          · intro e he
            rcases List.mem_append.mp he with he | he
            · exact hq e (List.mem_cons_of_mem _ he)
            · rcases mem_bfs_enq he with ⟨-, h2, -, -⟩
              omega

theorem contains_iff (l : List String) (a : String) : l.contains a = true ↔ a ∈ l := by
  simp

/-- The per-person update function of `setGen` leaves every field except
`generation` unchanged. -/
theorem updGen_id (p : Person) (i : String) (g : Nat) :
    (if p.id = i then { p with generation := some g } else p).id = p.id := by
  by_cases h : p.id = i <;> simp [h]

theorem updGen_parents (p : Person) (i : String) (g : Nat) :
    (if p.id = i then { p with generation := some g } else p).parents = p.parents := by
  by_cases h : p.id = i <;> simp [h]

theorem updGen_children (p : Person) (i : String) (g : Nat) :
    (if p.id = i then { p with generation := some g } else p).children = p.children := by
  by_cases h : p.id = i <;> simp [h]

theorem updGen_of_ne {p : Person} {i : String} (g : Nat) (h : p.id ≠ i) :
    (if p.id = i then { p with generation := some g } else p) = p := if_neg h

/-- Root invariant of the BFS: the queue splits into a front block of
generation-1 entries — containing an entry for every unvisited root —
followed by deeper entries, and every visited root already has generation
1.  Children are appended at the back, so every root is popped from the
front block and assigned generation 1. -/
theorem bfsLoop_roots_one :
    ∀ fuel st visited queue st' vis',
      bfsLoop fuel st visited queue = (st', vis') →
      ∀ qa qb, queue = qa ++ qb →
      (∀ e ∈ qa, e.2 = 1) →
      (∀ e ∈ qb, 2 ≤ e.2) →
      (∀ r ∈ st, r.parents = [] → r.id ∉ visited → (r.id, 1) ∈ qa) →
      (∀ r ∈ st, r.parents = [] → r.id ∈ visited → r.generation = some 1) →
      ∀ r ∈ st', r.parents = [] → r.id ∈ vis' → r.generation = some 1 := by
  intro fuel
  induction fuel with
  | zero =>
    intro st visited queue st' vis' heq qa qb hsplit h1 h2 hroot hvis
    cases queue with
    | nil => cases heq; exact hvis
    | cons e rest => obtain ⟨pid, gen⟩ := e; cases heq; exact hvis
  | succ f ih =>
    intro st visited queue st' vis' heq qa qb hsplit h1 h2 hroot hvis
    cases queue with
    | nil => cases heq; exact hvis
    | cons e rest =>
      obtain ⟨pid, gen⟩ := e
      simp only [bfsLoop] at heq
      rcases qa with _ | ⟨ea, qa'⟩
      · -- front block empty: every root is already visited
        rw [List.nil_append] at hsplit
        have hnoroot : ∀ r ∈ st, r.parents = [] → r.id ∈ visited := by
          intro r hr hpar
          by_cases hv : r.id ∈ visited
          · exact hv
          · exact absurd (hroot r hr hpar hv) (List.not_mem_nil _)
        split at heq
        · exact ih _ _ _ _ _ heq [] rest rfl (by simp)
            (fun e he => h2 e (hsplit ▸ List.mem_cons_of_mem _ he))
            (fun r hr hpar hv => absurd (hnoroot r hr hpar) hv) hvis
        · split at heq
          · exact ih _ _ _ _ _ heq [] rest rfl (by simp)
              (fun e he => h2 e (hsplit ▸ List.mem_cons_of_mem _ he))
              (fun r hr hpar hv => absurd (hnoroot r hr hpar) hv) hvis
          · rename_i person hm hv
            rw [contains_iff] at hv
            have hgen2 : 2 ≤ gen := h2 (pid, gen) (hsplit ▸ List.mem_cons_self _ _)
            refine ih _ _ _ _ _ heq [] _ rfl (by simp) ?_ ?_ ?_
            · intro e he
              rcases List.mem_append.mp he with he | he
              · exact h2 e (hsplit ▸ List.mem_cons_of_mem _ he)
              · rcases mem_bfs_enq he with ⟨-, h2e, -, -⟩
                omega
            · intro r hr hpar hrv
              rcases of_mem_setGen hr with ⟨r₀, hr₀, hre⟩
              exfalso
              apply hrv
              have hpar₀ : r₀.parents = [] := by
                rw [hre, updGen_parents] at hpar; exact hpar
              have hrid : r.id = r₀.id := by rw [hre, updGen_id]
              rw [hrid]
              exact List.mem_cons_of_mem _ (hnoroot r₀ hr₀ hpar₀)
            · intro r hr hpar hrv
              rcases of_mem_setGen hr with ⟨r₀, hr₀, hre⟩
              have hpar₀ : r₀.parents = [] := by
                rw [hre, updGen_parents] at hpar; exact hpar
              have hr₀v : r₀.id ∈ visited := hnoroot r₀ hr₀ hpar₀
              have hne : r₀.id ≠ person.id := fun hee => hv (hee ▸ hr₀v)
              rw [hre, updGen_of_ne _ hne]
              rw [hre, updGen_of_ne _ hne] at hrv
              exact hvis r₀ hr₀ hpar₀ hr₀v
      · -- front block nonempty: the popped entry is its head
        rw [List.cons_append] at hsplit
        obtain ⟨hea, hrest⟩ := List.cons_eq_cons.mp hsplit
        have hgen1 : gen = 1 := by
          have := h1 ea (List.mem_cons_self _ _)
          rw [← hea] at this; exact this
        split at heq
        · rename_i hm
          refine ih _ _ _ _ _ heq qa' qb hrest
            (fun e he => h1 e (List.mem_cons_of_mem _ he)) h2 ?_ hvis
          intro r hr hpar hrv
          rcases List.mem_cons.mp (hea ▸ hroot r hr hpar hrv) with h | h
          · exfalso
            have hrid : r.id = pid := by
              have := congrArg Prod.fst h; simpa using this
            have := mapGet_isSome_of_mem hr
            rw [hrid, hm] at this
            simp at this
          · exact h
        · split at heq
          · rename_i person hm hv
            rw [contains_iff] at hv
            have hpid : person.id = pid := mapGet_id hm
            refine ih _ _ _ _ _ heq qa' qb hrest
              (fun e he => h1 e (List.mem_cons_of_mem _ he)) h2 ?_ hvis
            intro r hr hpar hrv
            rcases List.mem_cons.mp (hea ▸ hroot r hr hpar hrv) with h | h
            · exfalso
              have hrid : r.id = pid := by
                have := congrArg Prod.fst h; simpa using this
              exact hrv (by rw [hrid, ← hpid]; exact hv)
            · exact h
          · rename_i person hm hv
            rw [contains_iff] at hv
            have hpid : person.id = pid := mapGet_id hm
            generalize henq : (person.children.filterMap (fun cid =>
              match mapGet (setGen st person.id gen) cid with
              | some child =>
                if (person.id :: visited).contains child.id then none
                else some (child.id, gen + 1)
              | none => none)) = enq at heq
            refine ih _ _ _ _ _ heq qa' (qb ++ enq)
              (by rw [hrest, List.append_assoc])
              (fun e he => h1 e (List.mem_cons_of_mem _ he)) ?_ ?_ ?_
            · intro e he
              rcases List.mem_append.mp he with he | he
              · exact h2 e he
              · rw [← henq] at he
                rcases mem_bfs_enq he with ⟨-, h2e, -, -⟩
                omega
            · intro r hr hpar hrv
              rcases of_mem_setGen hr with ⟨r₀, hr₀, hre⟩
              have hpar₀ : r₀.parents = [] := by
                rw [hre, updGen_parents] at hpar; exact hpar
              have hrid : r.id = r₀.id := by rw [hre, updGen_id]
              rw [hrid] at hrv
              have hvtail : r₀.id ∉ visited := fun hh =>
                hrv (List.mem_cons_of_mem _ hh)
              rcases List.mem_cons.mp (hea ▸ hroot r₀ hr₀ hpar₀ hvtail) with h | h
              · exfalso
                have : r₀.id = pid := by
                  have := congrArg Prod.fst h; simpa using this
                exact hrv (by rw [this, ← hpid]; exact List.mem_cons_self _ _)
              · rw [hrid]; exact h
            · intro r hr hpar hrv
              rcases of_mem_setGen hr with ⟨r₀, hr₀, hre⟩
              have hpar₀ : r₀.parents = [] := by
                rw [hre, updGen_parents] at hpar; exact hpar
              by_cases hrid : r₀.id = person.id
              · rw [hre, if_pos hrid, hgen1]
              · rw [hre, updGen_of_ne _ hrid]
                rw [hre, updGen_of_ne _ hrid] at hrv
                rcases List.mem_cons.mp hrv with h | h
                · exact absurd h hrid
                · exact hvis r₀ hr₀ hpar₀ h

/-- The BFS writes only freshly visited ids: a person that ends the loop
unvisited keeps an unset generation (when it started unset). -/
theorem bfsLoop_unvisited_none :
    ∀ fuel st visited queue st' vis',
      bfsLoop fuel st visited queue = (st', vis') →
      (∀ p ∈ st, p.id ∉ visited → p.generation = none) →
      ∀ p ∈ st', p.id ∉ vis' → p.generation = none := by
  intro fuel
  induction fuel with
  | zero =>
    intro st visited queue st' vis' heq hst
    cases queue with
    | nil => cases heq; exact hst
    | cons e rest => obtain ⟨pid, gen⟩ := e; cases heq; exact hst
  | succ f ih =>
    intro st visited queue st' vis' heq hst
    cases queue with
    | nil => cases heq; exact hst
    | cons e rest =>
      obtain ⟨pid, gen⟩ := e
      simp only [bfsLoop] at heq
      split at heq
      · exact ih _ _ _ _ _ heq hst
      · split at heq
        · exact ih _ _ _ _ _ heq hst
        · rename_i person hm hv
          apply ih _ _ _ _ _ heq
          intro p hp hpv
          rcases of_mem_setGen hp with ⟨p₀, hp₀, hpe⟩
          have hid : p.id = p₀.id := by rw [hpe, updGen_id]
          rw [hid] at hpv
          have hne : p₀.id ≠ person.id := fun h =>
            hpv (by rw [h]; exact List.mem_cons_self _ _)
          have hnv : p₀.id ∉ visited := fun h => hpv (List.mem_cons_of_mem _ h)
          rw [hpe, updGen_of_ne _ hne]
          exact hst p₀ hp₀ hnv

/-- Every visited person carries an assigned generation. -/
theorem bfsLoop_visited_some :
    ∀ fuel st visited queue st' vis',
      bfsLoop fuel st visited queue = (st', vis') →
      (∀ p ∈ st, p.id ∈ visited → (p.generation).isSome) →
      ∀ p ∈ st', p.id ∈ vis' → (p.generation).isSome := by
  intro fuel
  induction fuel with
  | zero =>
    intro st visited queue st' vis' heq hst
    cases queue with
    | nil => cases heq; exact hst
    | cons e rest => obtain ⟨pid, gen⟩ := e; cases heq; exact hst
  | succ f ih =>
    intro st visited queue st' vis' heq hst
    cases queue with
    | nil => cases heq; exact hst
    | cons e rest =>
      obtain ⟨pid, gen⟩ := e
      simp only [bfsLoop] at heq
      split at heq
      · exact ih _ _ _ _ _ heq hst
      · split at heq
        · exact ih _ _ _ _ _ heq hst
        · rename_i person hm hv
          apply ih _ _ _ _ _ heq
          intro p hp hpv
          rcases of_mem_setGen hp with ⟨p₀, hp₀, hpe⟩
          by_cases hne : p₀.id = person.id
          · rw [hpe, if_pos hne]
            simp
          · rw [hpe, updGen_of_ne _ hne]
            apply hst p₀ hp₀
            have hid : p.id = p₀.id := by rw [hpe, updGen_id]
            rw [hid] at hpv
            rcases List.mem_cons.mp hpv with h | h
            · exact absurd h hne
            · exact h

/-! ## Claim C3: generations after assignment -/

theorem defaultGen1_parents (p : Person) : (defaultGen1 p).parents = p.parents := by
  unfold defaultGen1
  cases p.generation <;> rfl

theorem defaultGen1_id (p : Person) : (defaultGen1 p).id = p.id := by
  unfold defaultGen1
  cases p.generation <;> rfl

theorem defaultGen1_of_some {p : Person} {g : Nat} (h : p.generation = some g) :
    defaultGen1 p = p := by
  unfold defaultGen1; rw [h]

theorem defaultGen1_of_none {p : Person} (h : p.generation = none) :
    defaultGen1 p = { p with generation := some 1 } := by
  unfold defaultGen1; rw [h]

/-- Claim C3 as stated: after generation assignment every person carries a
generation that is a positive integer, and every root (empty parents list)
carries exactly generation 1. -/
def generationsAssignedOk (people : List Person) : Prop :=
  ∀ p ∈ assignGenerations people,
    (p.generation).isSome = true ∧ 1 ≤ (p.generation).getD 0 ∧
      (p.parents = [] → p.generation = some 1)

/-- A person unreachable from any root whose raw record already carried
the numeric generation 0. -/
def peopleC3 : List Person :=
  [⟨"x", "x", "", ["ghost"], [], [], some 0, ""⟩]

/-- Claim C3 counterexample: `x` has a dangling parent reference, so it is
no root and is never visited; `Number.isFinite(0)` holds, so the
unreachable-people default leaves its generation at 0 — not a positive
integer. -/
theorem generationsAssignedOk_peopleC3_fails : ¬ generationsAssignedOk peopleC3 := by
  unfold generationsAssignedOk
  decide

/-- Claim C3 amended: provided no input record carries a pre-assigned
numeric generation (the generation field is unset before assignment, as
`normalizeData` leaves it for ordinary datasets), every person ends with
generation ≥ 1 and every root with generation exactly 1. -/
theorem generationsAssignedOk_of_unset (people : List Person)
    (hnone : ∀ p ∈ people, p.generation = none) :
    generationsAssignedOk people := by
  intro p hp
  unfold assignGenerations at hp
  rcases List.mem_map.mp hp with ⟨p₀, hp₀, hpe⟩
  have heq : bfsLoop (bfsFuel people) people []
      ((people.filter (fun p => p.parents.isEmpty)).map (fun r => (r.id, 1))) =
      ((bfsLoop (bfsFuel people) people []
        ((people.filter (fun p => p.parents.isEmpty)).map (fun r => (r.id, 1)))).1,
       (bfsLoop (bfsFuel people) people []
        ((people.filter (fun p => p.parents.isEmpty)).map (fun r => (r.id, 1)))).2) := rfl
  have hq1 : ∀ e ∈ (people.filter (fun p => p.parents.isEmpty)).map
      (fun r => (r.id, 1)), e.2 = 1 := by
    intro e he
    rcases List.mem_map.mp he with ⟨r, hr, hre⟩
    rw [← hre]
  have hgens := bfsLoop_gens_ok _ _ _ _ _ _ heq
    (fun q hq => Or.inl (hnone q hq))
    (fun e he => le_of_eq (hq1 e he).symm) p₀ hp₀
  have hroots := bfsLoop_roots_one _ _ _ _ _ _ heq _ []
    (List.append_nil _).symm hq1 (by simp)
    (fun r hr hpar _ => List.mem_map.mpr
      ⟨r, List.mem_filter.mpr ⟨hr, by simp [List.isEmpty_iff, hpar]⟩, rfl⟩)
    (by simp)
  have hunvis := bfsLoop_unvisited_none _ _ _ _ _ _ heq
    (fun q hq h => hnone q hq)
  refine ⟨?_, ?_, ?_⟩
  · rw [← hpe]
    rcases hgens with h | ⟨g, hg, -⟩
    · rw [defaultGen1_of_none h]; rfl
    · rw [defaultGen1_of_some hg, hg]; rfl
  · rw [← hpe]
    rcases hgens with h | ⟨g, hg, hg1⟩
    · rw [defaultGen1_of_none h]; simp
    · rw [defaultGen1_of_some hg, hg]; simpa using hg1
  · intro hpar
    have hpar₀ : p₀.parents = [] := by
      rw [← hpe, defaultGen1_parents] at hpar; exact hpar
    by_cases hv : p₀.id ∈ (bfsLoop (bfsFuel people) people []
        ((people.filter (fun p => p.parents.isEmpty)).map (fun r => (r.id, 1)))).2
    · have h1 := hroots p₀ hp₀ hpar₀ hv
      rw [← hpe, defaultGen1_of_some h1]
      exact h1
    · have h0 := hunvis p₀ hp₀ hv
      rw [← hpe, defaultGen1_of_none h0]

/-- A small dataset with unset generations: root `r` with child `c`. -/
def peopleC3W : List Person :=
  [⟨"r", "r", "", [], ["c"], [], none, ""⟩,
   ⟨"c", "c", "", ["r"], [], [], none, ""⟩]

/-- Witness for the amended claim C3 at a concrete dataset. -/
theorem generationsAssignedOk_of_unset_witness :
    (∀ p ∈ peopleC3W, p.generation = none) ∧ generationsAssignedOk peopleC3W :=
  ⟨by decide, generationsAssignedOk_of_unset peopleC3W (by decide)⟩

/-! ## Claim C4: the pre-propagation parent-child invariant -/

/-- The BFS preserves the id sequence of the store. -/
theorem bfsLoop_map_id :
    ∀ fuel st visited queue st' vis',
      bfsLoop fuel st visited queue = (st', vis') →
      st'.map (fun p => p.id) = st.map (fun p => p.id) := by
  intro fuel
  induction fuel with
  | zero =>
    intro st visited queue st' vis' heq
    cases queue with
    | nil => cases heq; rfl
    | cons e rest => obtain ⟨pid, gen⟩ := e; cases heq; rfl
  | succ f ih =>
    intro st visited queue st' vis' heq
    cases queue with
    | nil => cases heq; rfl
    | cons e rest =>
      obtain ⟨pid, gen⟩ := e
      simp only [bfsLoop] at heq
      split at heq
      · exact ih _ _ _ _ _ heq
      · split at heq
        · exact ih _ _ _ _ _ heq
        · rename_i person hm hv
          rw [ih _ _ _ _ _ heq, setGen_map_id]

/-- Discovery invariant: every queued entry deeper than generation 1 was
enqueued by an already-visited person that lists its id among its
children and sits exactly one generation higher, and the same holds for
every visited person deeper than generation 1. -/
theorem bfsLoop_discoverer :
    ∀ fuel st visited queue st' vis',
      bfsLoop fuel st visited queue = (st', vis') →
      (∀ e ∈ queue, e.2 = 1 ∨ ∃ q ∈ st, q.id ∈ visited ∧
        q.generation = some (e.2 - 1) ∧ e.1 ∈ q.children) →
      (∀ p ∈ st, p.id ∈ visited → ∀ g, p.generation = some g → 2 ≤ g →
        ∃ q ∈ st, q.id ∈ visited ∧ q.generation = some (g - 1) ∧ p.id ∈ q.children) →
      ∀ p ∈ st', p.id ∈ vis' → ∀ g, p.generation = some g → 2 ≤ g →
        ∃ q ∈ st', q.id ∈ vis' ∧ q.generation = some (g - 1) ∧ p.id ∈ q.children := by
  intro fuel
  induction fuel with
  | zero =>
    intro st visited queue st' vis' heq hq hvis
    cases queue with
    | nil => cases heq; exact hvis
    | cons e rest => obtain ⟨pid, gen⟩ := e; cases heq; exact hvis
  | succ f ih =>
    intro st visited queue st' vis' heq hq hvis
    cases queue with
    | nil => cases heq; exact hvis
    | cons e rest =>
      obtain ⟨pid, gen⟩ := e
      simp only [bfsLoop] at heq
      split at heq
      · exact ih _ _ _ _ _ heq
          (fun e he => hq e (List.mem_cons_of_mem _ he)) hvis
      · split at heq
        · exact ih _ _ _ _ _ heq
            (fun e he => hq e (List.mem_cons_of_mem _ he)) hvis
        · rename_i person hm hv
          rw [contains_iff] at hv
          have hpid : person.id = pid := mapGet_id hm
          -- lifting a witness into the updated state
          have hlift : ∀ q ∈ st, q.id ∈ visited →
              q ∈ setGen st person.id gen ∧ q.id ∈ person.id :: visited := by
            intro q hqst hqv
            have hne : q.id ≠ person.id := fun h => hv (h ▸ hqv)
            exact ⟨mem_setGen_of_ne hqst _ _ hne, List.mem_cons_of_mem _ hqv⟩
          apply ih _ _ _ _ _ heq
          · intro e he
            rcases List.mem_append.mp he with he | he
            · rcases hq e (List.mem_cons_of_mem _ he) with h | ⟨q, hqst, hqv, hqg, hqc⟩
              · exact Or.inl h
              · rcases hlift q hqst hqv with ⟨hq1, hq2⟩
                exact Or.inr ⟨q, hq1, hq2, hqg, hqc⟩
            · rcases mem_bfs_enq he with ⟨hch, h2e, -, -⟩
              right
              refine ⟨{ person with generation := some gen }, ?_, ?_, ?_, ?_⟩
              · exact mem_setGen_self (mapGet_mem hm) gen
              · exact List.mem_cons_self _ _
              · rw [h2e]; simp
              · exact hch
          · intro p hp hpv g hpg hg2
            rcases of_mem_setGen hp with ⟨p₀, hp₀, hpe⟩
            by_cases hne : p₀.id = person.id
            · -- the freshly visited person: its entry justifies it
              have hpg' : gen = g := by
                rw [hpe, if_pos hne] at hpg
                injection hpg
              rcases hq (pid, gen) (List.mem_cons_self _ _) with h | ⟨q, hqst, hqv, hqg, hqc⟩
              · exfalso; simp only [] at h; omega
              · rcases hlift q hqst hqv with ⟨hq1, hq2⟩
                refine ⟨q, hq1, hq2, by rw [← hpg']; exact hqg, ?_⟩
                have : p.id = pid := by
                  rw [hpe, updGen_id, hne, hpid]
                rw [this]; exact hqc
            · have hpp : p = p₀ := by rw [hpe, updGen_of_ne _ hne]
              rw [hpp] at hpv hpg
              have hpv' : p₀.id ∈ visited := by
                rcases List.mem_cons.mp hpv with h | h
                · exact absurd h hne
                · exact h
              rcases hvis p₀ hp₀ hpv' g hpg hg2 with ⟨q, hqst, hqv, hqg, hqc⟩
              rcases hlift q hqst hqv with ⟨hq1, hq2⟩
              rw [hpp]
              exact ⟨q, hq1, hq2, hqg, hqc⟩

/-- Claim C4 as stated: for every parent→child edge (the child id listed
in a parent's `children`, both endpoints resolving in the store) whose
child was reached by the BFS, the child's generation exceeds the parent's
by at least one.  Generations are read with default 0 so that the bound
also fails when a field is (impossibly) unset. -/
def bfsChildEdgeOk (people : List Person) : Prop :=
  ∀ p ∈ assignGenerations people, ∀ cid ∈ p.children,
    ∀ c ∈ (mapGet (assignGenerations people) cid).toList,
      c.id ∈ bfsVisited people →
        (p.generation).getD 0 + 1 ≤ (c.generation).getD 0

/-- Diamond dataset: root `r` with children `a` and `b`, and `a` also a
parent of `b` (an acyclic multi-path family: `b` is recorded as child of
both its parent `a` and its grandparent `r`). -/
def peopleC4 : List Person :=
  [⟨"r", "r", "", [], ["a", "b"], [], none, ""⟩,
   ⟨"a", "a", "", ["r"], ["b"], [], none, ""⟩,
   ⟨"b", "b", "", ["r", "a"], [], [], none, ""⟩]

/-- Claim C4 counterexample: BFS discovers `b` from `r` first, so
`b.generation = 2` while its parent `a` also has generation 2; the edge
`a → b` has both endpoints in the store and `b` reachable from the root,
yet 2 < 2 + 1. -/
theorem bfsChildEdgeOk_peopleC4_fails : ¬ bfsChildEdgeOk peopleC4 := by
  unfold bfsChildEdgeOk
  decide

/-- Claim C4 amended: first-discovered generation wins, so the bound holds
for the discovering edge rather than all edges — every person the BFS
reached at a generation of at least 2 has at least one parent→child edge
into it (both endpoints resolving) whose parent was also reached and sits
exactly one generation above it; for the other parent edges of a child
reachable by a shorter path the stated bound can fail. -/
theorem bfsChildEdge_discoverer (people : List Person)
    (hids : (people.map (fun p => p.id)).Nodup) :
    ∀ c ∈ assignGenerations people, c.id ∈ bfsVisited people →
      ∀ g, c.generation = some g → 2 ≤ g →
      ∃ q ∈ assignGenerations people, q.id ∈ bfsVisited people ∧
        q.generation = some (g - 1) ∧ c.id ∈ q.children ∧
        mapGet (assignGenerations people) c.id = some c := by
  intro c hc hcv g hcg hg2
  unfold assignGenerations at hc
  rcases List.mem_map.mp hc with ⟨c₀, hc₀, hce⟩
  have heq : bfsLoop (bfsFuel people) people []
      ((people.filter (fun p => p.parents.isEmpty)).map (fun r => (r.id, 1))) =
      ((bfsLoop (bfsFuel people) people []
        ((people.filter (fun p => p.parents.isEmpty)).map (fun r => (r.id, 1)))).1,
       (bfsLoop (bfsFuel people) people []
        ((people.filter (fun p => p.parents.isEmpty)).map (fun r => (r.id, 1)))).2) := rfl
  have hsome := bfsLoop_visited_some _ _ _ _ _ _ heq (by simp)
  have hdisc := bfsLoop_discoverer _ _ _ _ _ _ heq
    (by
      intro e he
      rcases List.mem_map.mp he with ⟨r, hr, hre⟩
      left
      rw [← hre])
    (by simp)
  have hcid : c.id = c₀.id := by rw [← hce, defaultGen1_id]
  have hv₀ : c₀.id ∈ bfsVisited people := by rw [← hcid]; exact hcv
  have hc₀some : (c₀.generation).isSome := hsome c₀ hc₀ hv₀
  have hcc : c = c₀ := by
    rcases Option.isSome_iff_exists.mp hc₀some with ⟨g₀, hg₀⟩
    rw [← hce, defaultGen1_of_some hg₀]
  rw [hcc] at hcg
  rcases hdisc c₀ hc₀ hv₀ g hcg hg2 with ⟨q, hqst, hqv, hqg, hqc⟩
  have hqout : q ∈ assignGenerations people := by
    unfold assignGenerations
    exact List.mem_map.mpr ⟨q, hqst, defaultGen1_of_some hqg⟩
  have houtids : ((assignGenerations people).map (fun p => p.id)).Nodup := by
    have h1 : (assignGenerations people).map (fun p => p.id) =
        ((bfsLoop (bfsFuel people) people []
          ((people.filter (fun p => p.parents.isEmpty)).map (fun r => (r.id, 1)))).1).map
          (fun p => p.id) := by
      unfold assignGenerations
      rw [List.map_map]
      apply List.map_congr_left
      intro p hp
      simp [defaultGen1_id]
    rw [h1, bfsLoop_map_id _ _ _ _ _ _ heq]
    exact hids
  refine ⟨q, hqout, by unfold bfsVisited; exact hqv, hqg, ?_, ?_⟩
  · rw [hcid]; exact hqc
  · exact mapGet_of_nodup houtids hc

/-- Chain dataset for the C4 witness: root `r` with child `c`. -/
def peopleC4W : List Person :=
  [⟨"r", "r", "", [], ["c"], [], none, ""⟩,
   ⟨"c", "c", "", ["r"], [], [], none, ""⟩]

/-- The record of `c` after generation assignment on `peopleC4W`. -/
def personC4W : Person := ⟨"c", "c", "", ["r"], [], [], some 2, ""⟩

/-- Witness for the amended claim C4 at a concrete dataset. -/
theorem bfsChildEdge_discoverer_witness :
    (peopleC4W.map (fun p => p.id)).Nodup ∧
    personC4W ∈ assignGenerations peopleC4W ∧
    personC4W.id ∈ bfsVisited peopleC4W ∧
    personC4W.generation = some 2 ∧
    (∃ q ∈ assignGenerations peopleC4W, q.id ∈ bfsVisited peopleC4W ∧
      q.generation = some (2 - 1) ∧ personC4W.id ∈ q.children ∧
      mapGet (assignGenerations peopleC4W) personC4W.id = some personC4W) :=
  ⟨by decide, by decide, by decide, by decide,
   bfsChildEdge_discoverer peopleC4W (by decide) personC4W (by decide)
     (by decide) 2 (by decide) (by decide)⟩

/-! ## Claim C2: the propagation fixed point -/

/-- An edge step that reports no change leaves the state unchanged, and —
when the spouse resolves — pins both live generation fields to the
maximum. -/
theorem spouseEdgeStep_false {st : List Person} {pid : String} {pg : Nat}
    {sid : String} {st' : List Person}
    (h : spouseEdgeStep st pid pg sid = (st', false)) :
    st' = st ∧ ∀ s, mapGet st sid = some s →
      (mapGet st pid).bind Person.generation = some (max pg (genOr1 s.generation)) ∧
      s.generation = some (max pg (genOr1 s.generation)) := by
  unfold spouseEdgeStep at h
  split at h
  · rename_i hm
    injection h with h1 h2
    refine ⟨h1.symm, fun s hs => ?_⟩
    rw [hm] at hs; cases hs
  · rename_i s hm
    by_cases h1 : ((mapGet st pid).bind Person.generation) ≠
        some (max pg (genOr1 s.generation))
    · exfalso
      simp only [if_pos h1] at h
      have := congrArg Prod.snd h
      simp at this
    · have h1' : (mapGet st pid).bind Person.generation =
          some (max pg (genOr1 s.generation)) := not_not.mp h1
      simp only [if_neg h1] at h
      by_cases h2 : ((mapGet st sid).bind Person.generation) ≠
          some (max pg (genOr1 s.generation))
      · exfalso
        simp only [if_pos h2] at h
        have := congrArg Prod.snd h
        simp at this
      · have h2' : (mapGet st sid).bind Person.generation =
            some (max pg (genOr1 s.generation)) := not_not.mp h2
        simp only [if_neg h2] at h
        have hst : st' = st := by
          have := congrArg Prod.fst h
          exact this.symm
        refine ⟨hst, fun s' hs' => ?_⟩
        have hss : s' = s := by
          rw [hm] at hs'
          injection hs' with hss
          exact hss.symm
        subst hss
        exact ⟨h1', by rw [hm] at h2'; simpa using h2'⟩

/-- A spouse-list walk that reports no change leaves the state unchanged
and certifies that every edge step on the unchanged state reports no
change. -/
theorem spousesLoop_false {pid : String} {pg : Nat} :
    ∀ ss st st', spousesLoop pid pg st ss = (st', false) →
      st' = st ∧ ∀ sid ∈ ss, spouseEdgeStep st pid pg sid = (st, false) := by
  intro ss
  induction ss with
  | nil =>
    intro st st' h
    injection h with h1 h2
    exact ⟨h1.symm, by simp⟩
  | cons sid rest ih =>
    intro st st' h
    simp only [spousesLoop] at h
    have hsnd := congrArg Prod.snd h
    simp only [Prod.snd] at hsnd
    rcases Bool.or_eq_false_iff.mp hsnd with ⟨he2, hl2⟩
    have hee : spouseEdgeStep st pid pg sid =
        ((spouseEdgeStep st pid pg sid).1, false) := by
      rw [← he2]
    have hstep := spouseEdgeStep_false hee
    have hfst := congrArg Prod.fst h
    simp only [Prod.fst] at hfst
    have hloop : spousesLoop pid pg (spouseEdgeStep st pid pg sid).1 rest =
        (st', false) := by
      rw [← hfst, ← hl2]
    rw [hstep.1] at hloop
    rcases ih st st' hloop with ⟨hst, hrest⟩
    refine ⟨hst, fun sid' hmem => ?_⟩
    rcases List.mem_cons.mp hmem with hh | hh
    · subst hh
      rw [hee, hstep.1]
    · exact hrest sid' hh

/-- A person step that reports no change leaves the state unchanged and
its spouse walk on the unchanged state reports no change. -/
theorem personStep_false {st st' : List Person} {pid : String}
    (h : personStep st pid = (st', false)) :
    st' = st ∧ ∀ p, mapGet st pid = some p →
      spousesLoop pid (genOr1 p.generation) st p.spouses = (st, false) := by
  unfold personStep at h
  split at h
  · rename_i hm
    injection h with h1 h2
    refine ⟨h1.symm, fun p hp => ?_⟩
    rw [hm] at hp; cases hp
  · rename_i p hm
    rcases spousesLoop_false _ _ _ h with ⟨hst, -⟩
    refine ⟨hst, fun p' hp' => ?_⟩
    have hpp : p' = p := by
      rw [hm] at hp'
      injection hp' with hh
      exact hh.symm
    subst hpp
    rw [hst] at h
    exact h

/-- A scan that reports no change leaves the state unchanged and every
person step on the unchanged state reports no change. -/
theorem propagatePass_false :
    ∀ ids st st', propagatePass st ids = (st', false) →
      st' = st ∧ ∀ pid ∈ ids, personStep st pid = (st, false) := by
  intro ids
  induction ids with
  | nil =>
    intro st st' h
    injection h with h1 h2
    exact ⟨h1.symm, by simp⟩
  | cons pid rest ih =>
    intro st st' h
    simp only [propagatePass] at h
    have hsnd := congrArg Prod.snd h
    simp only [Prod.snd] at hsnd
    rcases Bool.or_eq_false_iff.mp hsnd with ⟨he2, hl2⟩
    have hee : personStep st pid = ((personStep st pid).1, false) := by
      rw [← he2]
    have hstep := personStep_false hee
    have hfst := congrArg Prod.fst h
    simp only [Prod.fst] at hfst
    have hloop : propagatePass (personStep st pid).1 rest = (st', false) := by
      rw [← hfst, ← hl2]
    rw [hstep.1] at hloop
    rcases ih st st' hloop with ⟨hst, hrest⟩
    refine ⟨hst, fun pid' hmem => ?_⟩
    rcases List.mem_cons.mp hmem with hh | hh
    · subst hh
      rw [hee, hstep.1]
    · exact hrest pid' hh

/-- A converged propagation run ends in a state on which a full scan
reports no change. -/
theorem propagateLoop_some {ids : List String} :
    ∀ fuel st out, propagateLoop ids st fuel = some out →
      propagatePass out ids = (out, false) := by
  intro fuel
  induction fuel with
  | zero => intro st out h; cases h
  | succ f ih =>
    intro st out h
    simp only [propagateLoop] at h
    by_cases hr : (propagatePass st ids).2 = true
    · rw [if_pos hr] at h
      exact ih _ _ h
    · rw [if_neg hr] at h
      injection h with hout
      have h2 : (propagatePass st ids).2 = false := by
        cases hb : (propagatePass st ids).2
        · rfl
        · exact absurd hb hr
      have hpass : propagatePass st ids = ((propagatePass st ids).1, false) := by
        rw [← h2]
      rcases propagatePass_false _ _ _ hpass with ⟨hst, -⟩
      rw [← hout, hst]
      rw [hst] at hpass
      exact hpass

/-- The propagation writes through `setGen` only, so the id sequence of
the store never changes. -/
theorem spouseEdgeStep_map_id (st : List Person) (pid : String) (pg : Nat)
    (sid : String) :
    ((spouseEdgeStep st pid pg sid).1).map (fun p => p.id) = st.map (fun p => p.id) := by
  unfold spouseEdgeStep
  split
  · rfl
  · rename_i s hm
    by_cases h1 : ((mapGet st pid).bind Person.generation) ≠
        some (max pg (genOr1 s.generation))
    · simp only [if_pos h1]
      by_cases h2 : ((mapGet (setGen st pid (max pg (genOr1 s.generation))) sid).bind
          Person.generation) ≠ some (max pg (genOr1 s.generation))
      · simp only [if_pos h2, setGen_map_id]
      · simp only [if_neg h2, setGen_map_id]
    · simp only [if_neg h1]
      by_cases h2 : ((mapGet st sid).bind Person.generation) ≠
          some (max pg (genOr1 s.generation))
      · simp only [if_pos h2, setGen_map_id]
      · simp only [if_neg h2]

theorem spousesLoop_map_id (pid : String) (pg : Nat) :
    ∀ ss st, ((spousesLoop pid pg st ss).1).map (fun p => p.id) =
      st.map (fun p => p.id) := by
  intro ss
  induction ss with
  | nil => intro st; rfl
  | cons sid rest ih =>
    intro st
    simp only [spousesLoop]
    rw [ih ((spouseEdgeStep st pid pg sid).1), spouseEdgeStep_map_id]

theorem personStep_map_id (st : List Person) (pid : String) :
    ((personStep st pid).1).map (fun p => p.id) = st.map (fun p => p.id) := by
  unfold personStep
  split
  · rfl
  · rename_i p hm
    exact spousesLoop_map_id pid (genOr1 p.generation) p.spouses st

theorem propagatePass_map_id :
    ∀ ids st, ((propagatePass st ids).1).map (fun p => p.id) =
      st.map (fun p => p.id) := by
  intro ids
  induction ids with
  | nil => intro st; rfl
  | cons pid rest ih =>
    intro st
    simp only [propagatePass]
    rw [ih ((personStep st pid).1), personStep_map_id]

theorem propagateLoop_map_id {ids : List String} :
    ∀ fuel st out, propagateLoop ids st fuel = some out →
      out.map (fun p => p.id) = st.map (fun p => p.id) := by
  intro fuel
  induction fuel with
  | zero => intro st out h; cases h
  | succ f ih =>
    intro st out h
    simp only [propagateLoop] at h
    by_cases hr : (propagatePass st ids).2 = true
    · rw [if_pos hr] at h
      rw [ih _ _ h, propagatePass_map_id]
    · rw [if_neg hr] at h
      injection h with hout
      rw [← hout, propagatePass_map_id]

/-- Claim C2 (status: confirmed).  If the propagation converges — the
`while (changed)` loop exits within the given number of scans — then in
the resulting state every spousal edge with both endpoints in the store
joins people of equal generation, and re-running the propagation (with
any scan budget) returns the same state unchanged. -/
theorem propagateSpouseGenerations_fixed_point (people : List Person)
    (fuel : Nat) (out : List Person)
    (hids : (people.map (fun p => p.id)).Nodup)
    (h : propagateSpouseGenerations people fuel = some out) :
    (∀ pA ∈ out, ∀ sid ∈ pA.spouses, ∀ pB ∈ (mapGet out sid).toList,
      pA.generation = pB.generation) ∧
    (∀ k, propagateSpouseGenerations out (k + 1) = some out) := by
  unfold propagateSpouseGenerations at h
  have hmapid : out.map (fun p => p.id) = people.map (fun p => p.id) :=
    propagateLoop_map_id _ _ _ h
  have houtids : (out.map (fun p => p.id)).Nodup := by rw [hmapid]; exact hids
  have hpass := propagateLoop_some _ _ _ h
  have hedge : ∀ pA ∈ out, ∀ sid ∈ pA.spouses, ∀ pB ∈ (mapGet out sid).toList,
      pA.generation = pB.generation := by
    intro pA hA sid hsid pB hB
    have hBm : mapGet out sid = some pB := by
      cases hmm : mapGet out sid with
      | none => rw [hmm] at hB; simp [Option.toList] at hB
      | some q =>
        rw [hmm] at hB
        have hqe : pB = q := by simpa [Option.toList] using hB
        rw [hqe]
    have hAid : pA.id ∈ people.map (fun p => p.id) := by
      rw [← hmapid]
      exact List.mem_map.mpr ⟨pA, hA, rfl⟩
    rcases propagatePass_false _ _ _ hpass with ⟨-, hstep⟩
    have hps := hstep pA.id hAid
    rcases personStep_false hps with ⟨-, hsl⟩
    have hAm : mapGet out pA.id = some pA := mapGet_of_nodup houtids hA
    have hloop := hsl pA hAm
    rcases spousesLoop_false _ _ _ hloop with ⟨-, hedges⟩
    rcases spouseEdgeStep_false (hedges sid hsid) with ⟨-, hfacts⟩
    rcases hfacts pB hBm with ⟨hAg, hBg⟩
    rw [hAm] at hAg
    simp only [Option.bind] at hAg
    exact hAg.trans hBg.symm
  refine ⟨hedge, fun k => ?_⟩
  unfold propagateSpouseGenerations
  rw [hmapid]
  simp only [propagateLoop, hpass]
  simp

/-- Spouses `a` (generation 1) and `b` (generation 2), mutually linked. -/
def peopleC2W : List Person :=
  [⟨"a", "a", "", [], [], ["b"], some 1, ""⟩,
   ⟨"b", "b", "", [], [], ["a"], some 2, ""⟩]

/-- The converged state of `peopleC2W`: both at generation 2. -/
def peopleC2Wout : List Person :=
  [⟨"a", "a", "", [], [], ["b"], some 2, ""⟩,
   ⟨"b", "b", "", [], [], ["a"], some 2, ""⟩]

/-- Witness for claim C2 at a concrete dataset. -/
theorem propagateSpouseGenerations_fixed_point_witness :
    (peopleC2W.map (fun p => p.id)).Nodup ∧
    propagateSpouseGenerations peopleC2W 3 = some peopleC2Wout ∧
    ((∀ pA ∈ peopleC2Wout, ∀ sid ∈ pA.spouses,
        ∀ pB ∈ (mapGet peopleC2Wout sid).toList,
        pA.generation = pB.generation) ∧
     (∀ k, propagateSpouseGenerations peopleC2Wout (k + 1) = some peopleC2Wout)) :=
  ⟨by decide, by decide,
   propagateSpouseGenerations_fixed_point peopleC2W 3 peopleC2Wout
     (by decide) (by decide)⟩

/-! ## Claim C10: the generation stages write only the generation field -/

/-- Everything of a person except its generation. -/
def personFrame (p : Person) :
    String × String × String × List String × List String × List String × String :=
  (p.id, p.name, p.gender, p.parents, p.children, p.spouses, p.payload)

/-- The non-generation content of the store, in order. -/
def frames (st : List Person) :
    List (String × String × String × List String × List String × List String × String) :=
  st.map personFrame

theorem frames_setGen (st : List Person) (i : String) (g : Nat) :
    frames (setGen st i g) = frames st := by
  unfold frames setGen
  rw [List.map_map]
  apply List.map_congr_left
  intro p hp
  by_cases h : p.id = i <;> simp [h, personFrame]

theorem frames_bfsLoop :
    ∀ fuel st visited queue st' vis',
      bfsLoop fuel st visited queue = (st', vis') → frames st' = frames st := by
  intro fuel
  induction fuel with
  | zero =>
    intro st visited queue st' vis' heq
    cases queue with
    | nil => cases heq; rfl
    | cons e rest => obtain ⟨pid, gen⟩ := e; cases heq; rfl
  | succ f ih =>
    intro st visited queue st' vis' heq
    cases queue with
    | nil => cases heq; rfl
    | cons e rest =>
      obtain ⟨pid, gen⟩ := e
      simp only [bfsLoop] at heq
      split at heq
      · exact ih _ _ _ _ _ heq
      · split at heq
        · exact ih _ _ _ _ _ heq
        · rename_i person hm hv
          rw [ih _ _ _ _ _ heq, frames_setGen]

theorem frames_assignGenerations (people : List Person) :
    frames (assignGenerations people) = frames people := by
  unfold assignGenerations
  have heq : bfsLoop (bfsFuel people) people []
      ((people.filter (fun p => p.parents.isEmpty)).map (fun r => (r.id, 1))) =
      ((bfsLoop (bfsFuel people) people []
        ((people.filter (fun p => p.parents.isEmpty)).map (fun r => (r.id, 1)))).1,
       (bfsLoop (bfsFuel people) people []
        ((people.filter (fun p => p.parents.isEmpty)).map (fun r => (r.id, 1)))).2) := rfl
  have h1 : frames ((bfsLoop (bfsFuel people) people []
      ((people.filter (fun p => p.parents.isEmpty)).map (fun r => (r.id, 1)))).1.map
      defaultGen1) = frames (bfsLoop (bfsFuel people) people []
      ((people.filter (fun p => p.parents.isEmpty)).map (fun r => (r.id, 1)))).1 := by
    unfold frames
    rw [List.map_map]
    apply List.map_congr_left
    intro p hp
    show personFrame (defaultGen1 p) = personFrame p
    cases hg : p.generation with
    | none => rw [defaultGen1_of_none hg]; rfl
    | some g => rw [defaultGen1_of_some hg]
  rw [h1, frames_bfsLoop _ _ _ _ _ _ heq]

theorem frames_spouseEdgeStep (st : List Person) (pid : String) (pg : Nat)
    (sid : String) : frames (spouseEdgeStep st pid pg sid).1 = frames st := by
  unfold spouseEdgeStep
  split
  · rfl
  · rename_i s hm
    by_cases h1 : ((mapGet st pid).bind Person.generation) ≠
        some (max pg (genOr1 s.generation))
    · simp only [if_pos h1]
      by_cases h2 : ((mapGet (setGen st pid (max pg (genOr1 s.generation))) sid).bind
          Person.generation) ≠ some (max pg (genOr1 s.generation))
      · simp only [if_pos h2, frames_setGen]
      · simp only [if_neg h2, frames_setGen]
    · simp only [if_neg h1]
      by_cases h2 : ((mapGet st sid).bind Person.generation) ≠
          some (max pg (genOr1 s.generation))
      · simp only [if_pos h2, frames_setGen]
      · simp only [if_neg h2]

theorem frames_spousesLoop (pid : String) (pg : Nat) :
    ∀ ss st, frames (spousesLoop pid pg st ss).1 = frames st := by
  intro ss
  induction ss with
  | nil => intro st; rfl
  | cons sid rest ih =>
    intro st
    simp only [spousesLoop]
    rw [ih ((spouseEdgeStep st pid pg sid).1), frames_spouseEdgeStep]

theorem frames_personStep (st : List Person) (pid : String) :
    frames (personStep st pid).1 = frames st := by
  unfold personStep
  split
  · rfl
  · rename_i p hm
    exact frames_spousesLoop pid (genOr1 p.generation) p.spouses st

theorem frames_propagatePass :
    ∀ ids st, frames (propagatePass st ids).1 = frames st := by
  intro ids
  induction ids with
  | nil => intro st; rfl
  | cons pid rest ih =>
    intro st
    simp only [propagatePass]
    rw [ih ((personStep st pid).1), frames_personStep]

theorem frames_propagateLoop {ids : List String} :
    ∀ fuel st out, propagateLoop ids st fuel = some out →
      frames out = frames st := by
  intro fuel
  induction fuel with
  | zero => intro st out h; cases h
  | succ f ih =>
    intro st out h
    simp only [propagateLoop] at h
    by_cases hr : (propagatePass st ids).2 = true
    · rw [if_pos hr] at h
      rw [ih _ _ h, frames_propagatePass]
    · rw [if_neg hr] at h
      injection h with hout
      rw [← hout, frames_propagatePass]

/-- Claim C10 (status: confirmed).  When the pipeline runs generation
assignment and then spouse propagation (converging within the scan
budget), the resulting store agrees with the normalized input person by
person on every field except `generation`: id, name, gender, parents,
children, spouses and the opaque payload are untouched. -/
theorem generation_stages_frame (people : List Person) (fuel : Nat)
    (out : List Person)
    (h : propagateSpouseGenerations (assignGenerations people) fuel = some out) :
    frames out = frames people := by
  unfold propagateSpouseGenerations at h
  rw [frames_propagateLoop _ _ _ h, frames_assignGenerations]

/-- Witness for claim C10 at a concrete dataset: a root couple with one
child, run through both generation stages. -/
theorem generation_stages_frame_witness :
    propagateSpouseGenerations (assignGenerations
      [⟨"f", "father", "male", [], ["k"], ["m"], none, "notes"⟩,
       ⟨"m", "mother", "female", [], [], ["f"], none, ""⟩,
       ⟨"k", "kid", "", ["f"], [], [], none, ""⟩]) 3 =
      some [⟨"f", "father", "male", [], ["k"], ["m"], some 1, "notes"⟩,
            ⟨"m", "mother", "female", [], [], ["f"], some 1, ""⟩,
            ⟨"k", "kid", "", ["f"], [], [], some 2, ""⟩] ∧
    frames [⟨"f", "father", "male", [], ["k"], ["m"], some 1, "notes"⟩,
            ⟨"m", "mother", "female", [], [], ["f"], some 1, ""⟩,
            ⟨"k", "kid", "", ["f"], [], [], some 2, ""⟩] =
      frames [⟨"f", "father", "male", [], ["k"], ["m"], none, "notes"⟩,
              ⟨"m", "mother", "female", [], [], ["f"], none, ""⟩,
              ⟨"k", "kid", "", ["f"], [], [], none, ""⟩] :=
  ⟨by decide, generation_stages_frame _ 3 _ (by decide)⟩

/-! ## Claim C5: the display units partition the people -/

/-- With unique ids, equal ids identify equal members. -/
theorem id_inj_of_nodup {people : List Person}
    (h : (people.map (fun p => p.id)).Nodup) {a b : Person}
    (ha : a ∈ people) (hb : b ∈ people) (hid : a.id = b.id) : a = b := by
  have h1 := mapGet_of_nodup h ha
  have h2 := mapGet_of_nodup h hb
  rw [← hid] at h2
  rw [h1] at h2
  injection h2

/-- Filtering on a used-set extended by an id that occurs nowhere in the
list filters the same elements. -/
theorem filter_cons_id_ne {l : List Person} {i : String} {used : List String}
    (h : ∀ q ∈ l, q.id ≠ i) :
    l.filter (fun q => !((i :: used).contains q.id)) =
      l.filter (fun q => !(used.contains q.id)) := by
  apply List.filter_congr
  intro q hq
  have hne := h q hq
  simp [List.contains_cons, hne]

/-- Pulling one still-unused member out of a filtered list: the list
filtered on `used` is a permutation of the member followed by the list
filtered on `used` plus that member's id. -/
theorem perm_filter_pull {used : List String} :
    ∀ (l : List Person), (l.map (fun p => p.id)).Nodup →
      ∀ s ∈ l, s.id ∉ used →
      (l.filter (fun q => !(used.contains q.id))).Perm
        (s :: l.filter (fun q => !((s.id :: used).contains q.id))) := by
  intro l
  induction l with
  | nil => intro _ s hs; cases hs
  | cons t rest ih =>
    intro hnd s hs hsu
    have hnd' : (rest.map (fun p => p.id)).Nodup := by
      simp only [List.map_cons, List.nodup_cons] at hnd
      exact hnd.2
    have htid : t.id ∉ rest.map (fun p => p.id) := by
      simp only [List.map_cons, List.nodup_cons] at hnd
      exact hnd.1
    rcases List.mem_cons.mp hs with heq | hs'
    · subst heq
      have hrest : ∀ q ∈ rest, q.id ≠ s.id := by
        intro q hq hqe
        exact htid (hqe ▸ List.mem_map.mpr ⟨q, hq, rfl⟩)
      rw [List.filter_cons, List.filter_cons]
      have hkeep : (!(used.contains s.id)) = true := by
        simp [contains_iff, hsu]
      have hdrop : (!((s.id :: used).contains s.id)) = false := by
        simp [List.contains_cons]
      rw [if_pos hkeep, if_neg (by rw [hdrop]; simp)]
      rw [filter_cons_id_ne hrest]
    · have hts : t.id ≠ s.id := by
        intro hqe
        exact htid (hqe ▸ List.mem_map.mpr ⟨s, hs', rfl⟩)
      rw [List.filter_cons, List.filter_cons]
      by_cases htu : (!(used.contains t.id)) = true
      · have htu' : (!((s.id :: used).contains t.id)) = true := by
          simp only [List.contains_cons, Bool.not_eq_true'] at *
          simp only [Bool.or_eq_false_iff]
          refine ⟨by simp [hts], htu⟩
        rw [if_pos htu, if_pos htu']
        exact ((ih hnd' s hs' hsu).cons t).trans (List.Perm.swap s t _)
      · have htu' : ¬ ((!((s.id :: used).contains t.id)) = true) := by
          simp only [List.contains_cons, Bool.not_eq_true'] at *
          intro hcon
          rcases Bool.or_eq_false_iff.mp hcon with ⟨-, h2⟩
          exact htu h2
        rw [if_neg htu, if_neg htu']
        exact ih hnd' s hs' hsu

theorem filter_mid_id_ne {l : List Person} {i j : String} {used : List String}
    (h : ∀ q ∈ l, q.id ≠ j) :
    l.filter (fun q => !((i :: j :: used).contains q.id)) =
      l.filter (fun q => !((i :: used).contains q.id)) := by
  apply List.filter_congr
  intro q hq
  have hne := h q hq
  simp [List.contains_cons, hne]

/-- The iteration invariant of `buildDisplayUnits`: walking the remaining
suffix with a used-set, the emitted units cover exactly the not-yet-used
members of the suffix, each exactly once. -/
theorem buildUnitsAux_perm (people : List Person)
    (hids : (people.map (fun p => p.id)).Nodup)
    (hself : ∀ p ∈ people, p.spouses ≠ [p.id]) :
    ∀ rest used, rest.Sublist people →
      (∀ q ∈ people, q.id ∈ used ∨ q ∈ rest) →
      ((buildUnitsAux people rest used).flatMap unitMembers).Perm
        (rest.filter (fun q => !(used.contains q.id))) := by
  intro rest
  induction rest with
  | nil => intro used _ _; simp [buildUnitsAux]
  | cons p rest ih =>
    intro used hsub hcover
    have hpmem : p ∈ people := hsub.subset (List.mem_cons_self _ _)
    have hsub' : rest.Sublist people := (List.sublist_cons_self p rest).trans hsub
    have hnodup_pr : ((p :: rest).map (fun q => q.id)).Nodup :=
      hids.sublist (hsub.map _)
    have hpid_rest : ∀ q ∈ rest, q.id ≠ p.id := by
      simp only [List.map_cons, List.nodup_cons] at hnodup_pr
      intro q hq hqe
      exact hnodup_pr.1 (hqe ▸ List.mem_map.mpr ⟨q, hq, rfl⟩)
    have hnd_rest : (rest.map (fun q => q.id)).Nodup := by
      simp only [List.map_cons, List.nodup_cons] at hnodup_pr
      exact hnodup_pr.2
    by_cases hpu : used.contains p.id = true
    · have hgoal : (p :: rest).filter (fun q => !(used.contains q.id)) =
          rest.filter (fun q => !(used.contains q.id)) := by
        rw [List.filter_cons, if_neg]
        simp only [hpu, Bool.not_true, Bool.false_eq_true, not_false_eq_true]
      rw [hgoal]
      have hcover' : ∀ q ∈ people, q.id ∈ used ∨ q ∈ rest := by
        intro q hq
        rcases hcover q hq with h | h
        · exact Or.inl h
        · rcases List.mem_cons.mp h with heq | h
          · subst heq
            exact Or.inl ((contains_iff _ _).mp hpu)
          · exact Or.inr h
      unfold buildUnitsAux
      rw [if_pos hpu]
      exact ih used hsub' hcover'
    · have hpu' : p.id ∉ used := fun h => hpu ((contains_iff _ _).mpr h)
      have hfilter : (p :: rest).filter (fun q => !(used.contains q.id)) =
          p :: rest.filter (fun q => !(used.contains q.id)) := by
        rw [List.filter_cons, if_pos]
        simp only [Bool.not_eq_true']
        cases hb : used.contains p.id
        · rfl
        · exact absurd hb hpu
      have hcover1 : ∀ q ∈ people, q.id ∈ p.id :: used ∨ q ∈ rest := by
        intro q hq
        rcases hcover q hq with h | h
        · exact Or.inl (List.mem_cons_of_mem _ h)
        · rcases List.mem_cons.mp h with heq | h
          · subst heq
            exact Or.inl (List.mem_cons_self _ _)
          · exact Or.inr h
      have hsingle : ((DisplayUnit.single p (genOr1 p.generation) ::
          buildUnitsAux people rest (p.id :: used)).flatMap unitMembers).Perm
          ((p :: rest).filter (fun q => !(used.contains q.id))) := by
        rw [hfilter]
        have hihp := ih (p.id :: used) hsub' hcover1
        rw [filter_cons_id_ne hpid_rest] at hihp
        show (p :: (buildUnitsAux people rest (p.id :: used)).flatMap unitMembers).Perm
          (p :: rest.filter (fun q => !(used.contains q.id)))
        exact hihp.cons p
      unfold buildUnitsAux
      rw [if_neg hpu]
      split
      · rename_i sid hsp
        split
        · rename_i s hm
          by_cases hpair : ¬ used.contains s.id = true ∧ s.spouses = [p.id]
          · rw [if_pos hpair]
            have hsid : s.id = sid := mapGet_id hm
            have hsmem : s ∈ people := mapGet_mem hm
            have hsp_ne : s.id ≠ p.id := by
              intro hee
              have hspp : s = p := id_inj_of_nodup hids hsmem hpmem hee
              apply hself p hpmem
              rw [hsp, ← hsid, hspp]
            have hs_rest : s ∈ rest := by
              rcases hcover s hsmem with h | h
              · exact absurd ((contains_iff _ _).mpr h) hpair.1
              · rcases List.mem_cons.mp h with heq | h
                · exact absurd (heq ▸ rfl) hsp_ne
                · exact h
            have hsu : s.id ∉ used := fun h => hpair.1 ((contains_iff _ _).mpr h)
            have hcover2 : ∀ q ∈ people, q.id ∈ s.id :: p.id :: used ∨ q ∈ rest := by
              intro q hq
              rcases hcover1 q hq with h | h
              · exact Or.inl (List.mem_cons_of_mem _ h)
              · exact Or.inr h
            have hihc := ih (s.id :: p.id :: used) hsub' hcover2
            rw [filter_mid_id_ne hpid_rest] at hihc
            have hpull := perm_filter_pull rest hnd_rest s hs_rest hsu
            rw [hfilter]
            show (p :: s :: (buildUnitsAux people rest
              (s.id :: p.id :: used)).flatMap unitMembers).Perm
              (p :: rest.filter (fun q => !(used.contains q.id)))
            exact ((hihc.cons s).trans hpull.symm).cons p
          · rw [if_neg hpair]
            exact hsingle
        · exact hsingle
      · exact hsingle

/-- Claim C5 as stated: for a people list with pairwise-distinct ids,
every person appears in exactly one emitted display unit. -/
def displayUnitsPartition (people : List Person) : Prop :=
  (people.map (fun p => p.id)).Nodup →
    ∀ p ∈ people, ((buildDisplayUnits people).flatMap unitMembers).count p = 1

/-- One person married to themselves — the ids are (trivially) pairwise
distinct. -/
def peopleC5 : List Person :=
  [⟨"x", "x", "", [], [], ["x"], none, ""⟩]

/-- Claim C5 counterexample: `x.spouses = [x.id]` passes the mutual
one-entry test against itself (`s = peopleMap.get("x")` is `x`, not yet
used, with `s.spouses[0] === p.id`), so `buildDisplayUnits` emits the
couple (x, x): `x` appears twice in the emitted units. -/
theorem displayUnitsPartition_peopleC5_fails : ¬ displayUnitsPartition peopleC5 := by
  unfold displayUnitsPartition
  decide

/-- Claim C5 amended: for every people list with pairwise-distinct ids in
which no person lists exactly themselves as their only spouse, the
emitted units are a partition — the concatenation of all unit members is
a permutation of the people list (no duplicates, no omissions). -/
theorem buildDisplayUnits_partition (people : List Person)
    (hids : (people.map (fun p => p.id)).Nodup)
    (hself : ∀ p ∈ people, p.spouses ≠ [p.id]) :
    ((buildDisplayUnits people).flatMap unitMembers).Perm people := by
  unfold buildDisplayUnits
  have h := buildUnitsAux_perm people hids hself people [] (List.Sublist.refl _)
    (fun q hq => Or.inr hq)
  have hfe : people.filter (fun q => !(([] : List String).contains q.id)) = people := by
    apply List.filter_eq_self.mpr
    intro a ha; simp
  rw [hfe] at h
  exact h

/-- A couple and a single for the C5 witness. -/
def peopleC5W : List Person :=
  [⟨"a", "a", "", [], [], ["b"], some 1, ""⟩,
   ⟨"b", "b", "", [], [], ["a"], some 1, ""⟩,
   ⟨"c", "c", "", [], [], [], some 1, ""⟩]

/-- Witness for the amended claim C5 at a concrete dataset. -/
theorem buildDisplayUnits_partition_witness :
    (peopleC5W.map (fun p => p.id)).Nodup ∧
    (∀ p ∈ peopleC5W, p.spouses ≠ [p.id]) ∧
    ((buildDisplayUnits peopleC5W).flatMap unitMembers).Perm peopleC5W :=
  ⟨by decide, by decide, buildDisplayUnits_partition peopleC5W (by decide) (by decide)⟩

/-! ## Claim C6: exactly the strict mutual 1-to-1 pairs become couples -/

/-- Having a strict mutual exclusive spouse in the store. -/
def mutualPair (people : List Person) (p : Person) : Prop :=
  ∃ s ∈ people, p.spouses = [s.id] ∧ s.spouses = [p.id]

/-- Every couple unit the builder emits comes from a strict mutual
1-to-1 spouse pair, with the unit generation being the max of the two
members' generations. -/
theorem buildUnitsAux_couples_sound (people : List Person) :
    ∀ rest used, rest.Sublist people →
      ∀ u ∈ buildUnitsAux people rest used, ∀ a b g, u = DisplayUnit.couple a b g →
        a ∈ people ∧ b ∈ people ∧ a.spouses = [b.id] ∧ b.spouses = [a.id] ∧
        g = max (genOr1 a.generation) (genOr1 b.generation) := by
  intro rest
  induction rest with
  | nil =>
    intro used _ u hu
    simp [buildUnitsAux] at hu
  | cons p rest ih =>
    intro used hsub u hu a b g hue
    have hpmem : p ∈ people := hsub.subset (List.mem_cons_self _ _)
    have hsub' : rest.Sublist people := (List.sublist_cons_self p rest).trans hsub
    unfold buildUnitsAux at hu
    by_cases hpu : used.contains p.id = true
    · rw [if_pos hpu] at hu
      exact ih used hsub' u hu a b g hue
    · rw [if_neg hpu] at hu
      split at hu
      · rename_i sid hsp
        split at hu
        · rename_i s hm
          by_cases hpair : ¬ used.contains s.id = true ∧ s.spouses = [p.id]
          · rw [if_pos hpair] at hu
            rcases List.mem_cons.mp hu with heq | hu'
            · rw [hue] at heq
              injection heq with ha hb hg
              subst ha; subst hb; subst hg
              have hsid : b.id = sid := mapGet_id hm
              exact ⟨hpmem, mapGet_mem hm, by rw [hsp, hsid], hpair.2, rfl⟩
            · exact ih _ hsub' u hu' a b g hue
          · rw [if_neg hpair] at hu
            rcases List.mem_cons.mp hu with heq | hu'
            · rw [hue] at heq; cases heq
            · exact ih _ hsub' u hu' a b g hue
        · rcases List.mem_cons.mp hu with heq | hu'
          · rw [hue] at heq; cases heq
          · exact ih _ hsub' u hu' a b g hue
      · rcases List.mem_cons.mp hu with heq | hu'
        · rw [hue] at heq; cases heq
        · exact ih _ hsub' u hu' a b g hue

/-- Every strict mutual 1-to-1 spouse pair whose members are still
unconsumed yields a couple unit. -/
theorem buildUnitsAux_couples_complete (people : List Person)
    (hids : (people.map (fun p => p.id)).Nodup) :
    ∀ rest used, rest.Sublist people →
      ∀ A B, A ∈ people → B ∈ people →
        A.spouses = [B.id] → B.spouses = [A.id] →
        A.id ∉ used → B.id ∉ used → (A ∈ rest ∨ B ∈ rest) →
        (∃ g, DisplayUnit.couple A B g ∈ buildUnitsAux people rest used) ∨
        (∃ g, DisplayUnit.couple B A g ∈ buildUnitsAux people rest used) := by
  intro rest
  induction rest with
  | nil =>
    intro used _ A B _ _ _ _ _ _ hmem
    rcases hmem with h | h <;> simp at h
  | cons p rest ih =>
    intro used hsub A B hA hB hAB hBA hAu hBu hmem
    have hpmem : p ∈ people := hsub.subset (List.mem_cons_self _ _)
    have hsub' : rest.Sublist people := (List.sublist_cons_self p rest).trans hsub
    have lift : ∀ (u : DisplayUnit) (l : List DisplayUnit),
        ((∃ g, DisplayUnit.couple A B g ∈ l) ∨ (∃ g, DisplayUnit.couple B A g ∈ l)) →
        ((∃ g, DisplayUnit.couple A B g ∈ u :: l) ∨
         (∃ g, DisplayUnit.couple B A g ∈ u :: l)) := by
      rintro u l (⟨g, h⟩ | ⟨g, h⟩)
      · exact Or.inl ⟨g, List.mem_cons_of_mem _ h⟩
      · exact Or.inr ⟨g, List.mem_cons_of_mem _ h⟩
    unfold buildUnitsAux
    by_cases hpu : used.contains p.id = true
    · rw [if_pos hpu]
      have hAp : A ≠ p := fun he => hAu (by rw [he]; exact (contains_iff _ _).mp hpu)
      have hBp : B ≠ p := fun he => hBu (by rw [he]; exact (contains_iff _ _).mp hpu)
      have hmem' : A ∈ rest ∨ B ∈ rest := by
        rcases hmem with h | h
        · rcases List.mem_cons.mp h with he | h
          · exact absurd he hAp
          · exact Or.inl h
        · rcases List.mem_cons.mp h with he | h
          · exact absurd he hBp
          · exact Or.inr h
      exact ih used hsub' A B hA hB hAB hBA hAu hBu hmem'
    · rw [if_neg hpu]
      by_cases hpA : p = A
      · subst hpA
        split
        · rename_i sid hsp
          rw [hAB] at hsp
          injection hsp with hsid htl
          subst hsid
          split
          · rename_i s hm
            rw [mapGet_of_nodup hids hB] at hm
            injection hm with hsB
            subst hsB
            rw [if_pos ⟨fun hc => hBu ((contains_iff _ _).mp hc), hBA⟩]
            exact Or.inl ⟨_, List.mem_cons_self _ _⟩
          · rename_i hm
            rw [mapGet_of_nodup hids hB] at hm
            cases hm
        · rename_i hno
          exact (hno B.id hAB).elim
      · by_cases hpB : p = B
        · subst hpB
          split
          · rename_i sid hsp
            rw [hBA] at hsp
            injection hsp with hsid htl
            subst hsid
            split
            · rename_i s hm
              rw [mapGet_of_nodup hids hA] at hm
              injection hm with hsA
              subst hsA
              rw [if_pos ⟨fun hc => hAu ((contains_iff _ _).mp hc), hAB⟩]
              exact Or.inr ⟨_, List.mem_cons_self _ _⟩
            · rename_i hm
              rw [mapGet_of_nodup hids hA] at hm
              cases hm
          · rename_i hno
            exact (hno A.id hBA).elim
        · have hApid : A.id ≠ p.id := fun h =>
            hpA (id_inj_of_nodup hids hA hpmem h).symm
          have hBpid : B.id ≠ p.id := fun h =>
            hpB (id_inj_of_nodup hids hB hpmem h).symm
          have hmem' : A ∈ rest ∨ B ∈ rest := by
            rcases hmem with h | h
            · rcases List.mem_cons.mp h with he | h
              · exact absurd he.symm hpA
              · exact Or.inl h
            · rcases List.mem_cons.mp h with he | h
              · exact absurd he.symm hpB
              · exact Or.inr h
          have hAu1 : A.id ∉ p.id :: used := by
            intro h
            rcases List.mem_cons.mp h with he | h
            · exact hApid he
            · exact hAu h
          have hBu1 : B.id ∉ p.id :: used := by
            intro h
            rcases List.mem_cons.mp h with he | h
            · exact hBpid he
            · exact hBu h
          split
          · rename_i sid hsp
            split
            · rename_i s hm
              have hsmem : s ∈ people := mapGet_mem hm
              by_cases hcond : ¬ used.contains s.id = true ∧ s.spouses = [p.id]
              · rw [if_pos hcond]
                have hAsid : A.id ≠ s.id := by
                  intro h
                  have hAs : A = s := id_inj_of_nodup hids hA hsmem h
                  rw [← hAs, hAB] at hcond
                  have : B.id = p.id := List.head_eq_of_cons_eq hcond.2
                  exact hBpid this
                have hBsid : B.id ≠ s.id := by
                  intro h
                  have hBs : B = s := id_inj_of_nodup hids hB hsmem h
                  rw [← hBs, hBA] at hcond
                  have : A.id = p.id := List.head_eq_of_cons_eq hcond.2
                  exact hApid this
                have hAu2 : A.id ∉ s.id :: p.id :: used := by
                  intro h
                  rcases List.mem_cons.mp h with he | h
                  · exact hAsid he
                  · exact hAu1 h
                have hBu2 : B.id ∉ s.id :: p.id :: used := by
                  intro h
                  rcases List.mem_cons.mp h with he | h
                  · exact hBsid he
                  · exact hBu1 h
                exact lift _ _ (ih _ hsub' A B hA hB hAB hBA hAu2 hBu2 hmem')
              · rw [if_neg hcond]
                exact lift _ _ (ih _ hsub' A B hA hB hAB hBA hAu1 hBu1 hmem')
            · exact lift _ _ (ih _ hsub' A B hA hB hAB hBA hAu1 hBu1 hmem')
          · exact lift _ _ (ih _ hsub' A B hA hB hAB hBA hAu1 hBu1 hmem')

/-- Every unconsumed person without a strict mutual partner is emitted
as a single unit carrying their own (defaulted) generation. -/
theorem buildUnitsAux_single_complete (people : List Person)
    (hids : (people.map (fun p => p.id)).Nodup) :
    ∀ rest used, rest.Sublist people →
      ∀ p, p ∈ rest → p.id ∉ used → ¬ mutualPair people p →
        DisplayUnit.single p (genOr1 p.generation) ∈ buildUnitsAux people rest used := by
  intro rest
  induction rest with
  | nil =>
    intro used _ p hp
    simp at hp
  | cons q rest ih =>
    intro used hsub p hp hpu hnm
    have hqmem : q ∈ people := hsub.subset (List.mem_cons_self _ _)
    have hpmem : p ∈ people := hsub.subset hp
    have hsub' : rest.Sublist people := (List.sublist_cons_self q rest).trans hsub
    unfold buildUnitsAux
    by_cases hqu : used.contains q.id = true
    · rw [if_pos hqu]
      have hpq : p ≠ q := fun he => hpu (by rw [he]; exact (contains_iff _ _).mp hqu)
      have hp' : p ∈ rest := by
        rcases List.mem_cons.mp hp with he | h
        · exact absurd he hpq
        · exact h
      exact ih used hsub' p hp' hpu hnm
    · rw [if_neg hqu]
      by_cases hqp : q = p
      · subst hqp
        split
        · rename_i sid hsp
          split
          · rename_i s hm
            by_cases hcond : ¬ used.contains s.id = true ∧ s.spouses = [q.id]
            · have hsmem : s ∈ people := mapGet_mem hm
              have hsid : s.id = sid := mapGet_id hm
              exact absurd ⟨s, hsmem, by rw [hsp, hsid], hcond.2⟩ hnm
            · rw [if_neg hcond]
              exact List.mem_cons_self _ _
          · exact List.mem_cons_self _ _
        · exact List.mem_cons_self _ _
      · have hppid : p.id ≠ q.id := fun h =>
          hqp (id_inj_of_nodup hids hpmem hqmem h).symm
        have hp' : p ∈ rest := by
          rcases List.mem_cons.mp hp with he | h
          · exact absurd he.symm hqp
          · exact h
        have hpu1 : p.id ∉ q.id :: used := by
          intro h
          rcases List.mem_cons.mp h with he | h
          · exact hppid he
          · exact hpu h
        split
        · rename_i sid hsp
          split
          · rename_i s hm
            by_cases hcond : ¬ used.contains s.id = true ∧ s.spouses = [q.id]
            · rw [if_pos hcond]
              have hsmem : s ∈ people := mapGet_mem hm
              have hsid : s.id = sid := mapGet_id hm
              have hpsid : p.id ≠ s.id := by
                intro h
                have hps : p = s := id_inj_of_nodup hids hpmem hsmem h
                refine hnm ⟨q, hqmem, ?_, ?_⟩
                · rw [hps]; exact hcond.2
                · rw [hsp, ← hsid, ← hps]
              have hpu2 : p.id ∉ s.id :: q.id :: used := by
                intro h
                rcases List.mem_cons.mp h with he | h
                · exact hpsid he
                · exact hpu1 h
              exact List.mem_cons_of_mem _ (ih _ hsub' p hp' hpu2 hnm)
            · rw [if_neg hcond]
              exact List.mem_cons_of_mem _ (ih _ hsub' p hp' hpu1 hnm)
          · exact List.mem_cons_of_mem _ (ih _ hsub' p hp' hpu1 hnm)
        · exact List.mem_cons_of_mem _ (ih _ hsub' p hp' hpu1 hnm)

/-- C6: with unique ids, `buildDisplayUnits` emits a couple unit for a
pair exactly when the two spouse lists are the strict mutual exclusive
singletons of each other's ids and both resolve in the store, the couple
unit's generation is the max of its members' generations, and any person
without such a strict mutual partner is emitted as a single unit. -/
theorem buildDisplayUnits_couples_iff (people : List Person)
    (hids : (people.map (fun p => p.id)).Nodup) :
    (∀ u ∈ buildDisplayUnits people, ∀ a b g, u = DisplayUnit.couple a b g →
        a ∈ people ∧ b ∈ people ∧ a.spouses = [b.id] ∧ b.spouses = [a.id] ∧
        g = max (genOr1 a.generation) (genOr1 b.generation)) ∧
    (∀ A ∈ people, ∀ B ∈ people, A.spouses = [B.id] → B.spouses = [A.id] →
        (∃ g, DisplayUnit.couple A B g ∈ buildDisplayUnits people) ∨
        (∃ g, DisplayUnit.couple B A g ∈ buildDisplayUnits people)) ∧
    (∀ p ∈ people, ¬ mutualPair people p →
        DisplayUnit.single p (genOr1 p.generation) ∈ buildDisplayUnits people) := by
  refine ⟨?_, ?_, ?_⟩
  · intro u hu a b g hue
    exact buildUnitsAux_couples_sound people people [] (List.Sublist.refl _) u hu a b g hue
  · intro A hA B hB hAB hBA
    exact buildUnitsAux_couples_complete people hids people [] (List.Sublist.refl _)
      A B hA hB hAB hBA (List.not_mem_nil _) (List.not_mem_nil _) (Or.inl hA)
  · intro p hp hnm
    exact buildUnitsAux_single_complete people hids people [] (List.Sublist.refl _)
      p hp (List.not_mem_nil _) hnm

/-- A witness store: `a`/`b` are a strict mutual pair; `x` lists `y` but
`y` lists `[y, z]`, so `x`, `y`, `z` must all surface as single units. -/
def peopleC6 : List Person := [
  ⟨"a", "A", "", [], [], ["b"], some 1, ""⟩,
  ⟨"b", "B", "", [], [], ["a"], some 2, ""⟩,
  ⟨"x", "X", "", [], [], ["y"], some 1, ""⟩,
  ⟨"y", "Y", "", [], [], ["y", "z"], some 1, ""⟩,
  ⟨"z", "Z", "", [], [], [], some 1, ""⟩]

theorem buildDisplayUnits_couples_iff_witness :
    (peopleC6.map (fun p => p.id)).Nodup ∧
    ((∀ u ∈ buildDisplayUnits peopleC6, ∀ a b g, u = DisplayUnit.couple a b g →
        a ∈ peopleC6 ∧ b ∈ peopleC6 ∧ a.spouses = [b.id] ∧ b.spouses = [a.id] ∧
        g = max (genOr1 a.generation) (genOr1 b.generation)) ∧
     (∀ A ∈ peopleC6, ∀ B ∈ peopleC6, A.spouses = [B.id] → B.spouses = [A.id] →
        (∃ g, DisplayUnit.couple A B g ∈ buildDisplayUnits peopleC6) ∨
        (∃ g, DisplayUnit.couple B A g ∈ buildDisplayUnits peopleC6)) ∧
     (∀ p ∈ peopleC6, ¬ mutualPair peopleC6 p →
        DisplayUnit.single p (genOr1 p.generation) ∈ buildDisplayUnits peopleC6)) :=
  ⟨by decide, buildDisplayUnits_couples_iff peopleC6 (by decide)⟩

/-! ## Claim C9: one spouse connector per unordered pair -/

/-- A connector entry touches exactly the unordered pair `{x, y}`. -/
def pairMatch (x y : String) (e : String × String) : Bool :=
  (e.1 == x && e.2 == y) || (e.1 == y && e.2 == x)

/-- How many emitted connectors touch the unordered pair `{x, y}`. -/
def connectorsFor (es : List (String × String)) (x y : String) : Nat :=
  es.countP (pairMatch x y)

/-- The claim as stated: every unordered pair of distinct carded persons
with a spouse link in at least one direction gets exactly one connector. -/
def spouseConnectorsOnce (cards : List String) (people : List Person) : Prop :=
  ∀ A ∈ people, ∀ B ∈ people, A.id ≠ B.id →
    A.id ∈ cards → B.id ∈ cards →
    (B.id ∈ A.spouses ∨ A.id ∈ B.spouses) →
    connectorsFor (drawSpouseConnectors cards people) A.id B.id = 1

/-- Ids containing the join separator: `["a","b__c"].sort().join('__')`
and `["a__b","c"].sort().join('__')` are both `"a__b__c"`. -/
def peopleC9 : List Person := [
  ⟨"a", "A", "", [], [], ["b__c"], some 1, ""⟩,
  ⟨"b__c", "BC", "", [], [], [], some 1, ""⟩,
  ⟨"a__b", "AB", "", [], [], ["c"], some 1, ""⟩,
  ⟨"c", "C", "", [], [], [], some 1, ""⟩]

def cardsC9 : List String := ["a", "b__c", "a__b", "c"]

/-- C9 as stated fails: the `a__b`–`c` connector is suppressed because its
pair key collides with the already-drawn `a`–`b__c` key. -/
theorem spouseConnectorsOnce_peopleC9_fails : ¬ spouseConnectorsOnce cardsC9 peopleC9 := by
  unfold spouseConnectorsOnce
  decide

/-- Code-unit comparison is asymmetric. -/
theorem charListLt_asymm : ∀ as bs : List Char,
    charListLt as bs = true → charListLt bs as = false := by
  intro as
  induction as with
  | nil =>
    intro bs h
    cases bs with
    | nil => simp [charListLt] at h
    | cons b bs => simp [charListLt]
  | cons a as ih =>
    intro bs h
    cases bs with
    | nil => simp [charListLt] at h
    | cons b bs =>
      simp only [charListLt] at h ⊢
      by_cases h1 : a.toNat < b.toNat
      · rw [if_pos h1] at h
        rw [if_neg (by omega), if_pos h1]
      · rw [if_neg h1] at h
        by_cases h2 : b.toNat < a.toNat
        · rw [if_pos h2] at h
          cases h
        · rw [if_neg h2] at h
          rw [if_neg h2, if_neg h1]
          exact ih bs h

/-- Two strings neither of which precedes the other are equal. -/
theorem charListLt_eq : ∀ as bs : List Char,
    charListLt as bs = false → charListLt bs as = false → as = bs := by
  intro as
  induction as with
  | nil =>
    intro bs h1 _
    cases bs with
    | nil => rfl
    | cons b bs => simp [charListLt] at h1
  | cons a as ih =>
    intro bs h1 h2
    cases bs with
    | nil => simp [charListLt] at h2
    | cons b bs =>
      simp only [charListLt] at h1 h2
      by_cases hab : a.toNat < b.toNat
      · rw [if_pos hab] at h1
        cases h1
      · by_cases hba : b.toNat < a.toNat
        · rw [if_pos hba] at h2
          cases h2
        · rw [if_neg hab, if_neg hba] at h1
          rw [if_neg hba, if_neg hab] at h2
          have hnn : a.toNat = b.toNat := by omega
          have hc : a = b :=
            Char.eq_of_val_eq (UInt32.ext (by simpa [Char.toNat] using hnn))
          rw [hc, ih bs h1 h2]

theorem strLt_eq {a b : String} (h1 : strLt a b = false) (h2 : strLt b a = false) :
    a = b := by
  have h := charListLt_eq a.data b.data h1 h2
  cases a
  cases b
  exact congrArg String.mk h

/-- The pair key is symmetric in its two arguments. -/
theorem pairKey_comm (a b : String) : pairKey a b = pairKey b a := by
  unfold pairKey
  cases h1 : strLt a b
  · cases h2 : strLt b a
    · rw [strLt_eq h1 h2]
    · simp
  · have h2 := charListLt_asymm _ _ h1
    have h2' : strLt b a = false := h2
    simp [h2']

/-- An entry matching the unordered pair `{x, y}` has pair key `pairKey x y`. -/
theorem pairMatch_key {x y : String} {e : String × String}
    (h : pairMatch x y e = true) : pairKey e.1 e.2 = pairKey x y := by
  unfold pairMatch at h
  simp only [Bool.or_eq_true, Bool.and_eq_true, beq_iff_eq] at h
  rcases h with ⟨h1, h2⟩ | ⟨h1, h2⟩
  · rw [h1, h2]
  · rw [h1, h2, pairKey_comm]

/-- Once the pair key is recorded, the inner loop never emits another
connector for the pair, and the key stays recorded. -/
theorem spouseConnLoop_count_zero (cards : List String) (pid x y : String) :
    ∀ sids drawn, pairKey x y ∈ drawn →
      (spouseConnLoop cards pid sids drawn).1.countP (pairMatch x y) = 0 ∧
      pairKey x y ∈ (spouseConnLoop cards pid sids drawn).2 := by
  intro sids
  induction sids with
  | nil =>
    intro drawn hk
    exact ⟨rfl, hk⟩
  | cons sid rest ih =>
    intro drawn hk
    simp only [spouseConnLoop]
    split
    · exact ih drawn hk
    · split
      · exact ih drawn hk
      · rename_i hc hd
        have hne : pairKey pid sid ≠ pairKey x y := by
          intro he
          exact hd (by rw [he]; exact (contains_iff _ _).mpr hk)
        obtain ⟨h1, h2⟩ := ih (pairKey pid sid :: drawn) (List.mem_cons_of_mem _ hk)
        refine ⟨?_, h2⟩
        have hm : pairMatch x y (pid, sid) = false := by
          cases hb : pairMatch x y (pid, sid)
          · rfl
          · exact absurd (pairMatch_key hb) hne
        show List.countP (pairMatch x y)
            ((pid, sid) :: (spouseConnLoop cards pid rest (pairKey pid sid :: drawn)).1) = 0
        exact (List.countP_cons_of_neg _ _ (by simp [hm])).trans h1

/-- If no spouse entry of this card can produce the pair's key, the inner
loop emits no connector for the pair and leaves its key unrecorded. -/
theorem spouseConnLoop_count_fresh (cards : List String) (pid x y : String) :
    ∀ sids drawn, pairKey x y ∉ drawn →
      (∀ sid ∈ sids, sid ∈ cards → pairKey pid sid ≠ pairKey x y) →
      (spouseConnLoop cards pid sids drawn).1.countP (pairMatch x y) = 0 ∧
      pairKey x y ∉ (spouseConnLoop cards pid sids drawn).2 := by
  intro sids
  induction sids with
  | nil =>
    intro drawn hk _
    exact ⟨rfl, hk⟩
  | cons sid rest ih =>
    intro drawn hk hno
    have hno' : ∀ s ∈ rest, s ∈ cards → pairKey pid s ≠ pairKey x y :=
      fun s hs => hno s (List.mem_cons_of_mem _ hs)
    simp only [spouseConnLoop]
    split
    · exact ih drawn hk hno'
    · rename_i hc
      have hsidc : sid ∈ cards := by
        rcases Decidable.not_not.mp (fun hn => hc (fun hcc => hn hcc)) with hcc
        exact (contains_iff _ _).mp hcc
      have hkey : pairKey pid sid ≠ pairKey x y :=
        hno sid (List.mem_cons_self _ _) hsidc
      split
      · exact ih drawn hk hno'
      · have hk' : pairKey x y ∉ pairKey pid sid :: drawn := by
          intro h
          rcases List.mem_cons.mp h with he | h
          · exact hkey he.symm
          · exact hk h
        obtain ⟨h1, h2⟩ := ih (pairKey pid sid :: drawn) hk' hno'
        refine ⟨?_, h2⟩
        have hm : pairMatch x y (pid, sid) = false := by
          cases hb : pairMatch x y (pid, sid)
          · rfl
          · exact absurd (pairMatch_key hb) hkey
        show List.countP (pairMatch x y)
            ((pid, sid) :: (spouseConnLoop cards pid rest (pairKey pid sid :: drawn)).1) = 0
        exact (List.countP_cons_of_neg _ _ (by simp [hm])).trans h1

/-- With the pair key still fresh and no other spouse entry able to
produce it, the first carded occurrence of the partner emits exactly one
connector for the pair and records its key. -/
theorem spouseConnLoop_count_one (cards : List String) (x y : String)
    (hxy : x ≠ y) (hyc : y ∈ cards)
    (hinj : ∀ sid ∈ cards, pairKey x sid = pairKey x y → sid = y) :
    ∀ sids drawn, pairKey x y ∉ drawn → y ∈ sids →
      (spouseConnLoop cards x sids drawn).1.countP (pairMatch x y) = 1 ∧
      pairKey x y ∈ (spouseConnLoop cards x sids drawn).2 := by
  intro sids
  induction sids with
  | nil =>
    intro drawn _ hy
    simp at hy
  | cons sid rest ih =>
    intro drawn hk hy
    simp only [spouseConnLoop]
    split
    · rename_i hc
      have hsy : sid ≠ y := by
        intro he
        exact hc (by rw [he]; exact (contains_iff _ _).mpr hyc)
      have hy' : y ∈ rest := by
        rcases List.mem_cons.mp hy with he | h
        · exact absurd he.symm hsy
        · exact h
      exact ih drawn hk hy'
    · rename_i hc
      have hsidc : sid ∈ cards := by
        rcases Decidable.not_not.mp (fun hn => hc (fun hcc => hn hcc)) with hcc
        exact (contains_iff _ _).mp hcc
      split
      · rename_i hd
        have hsy : sid ≠ y := by
          intro he
          rw [he] at hd
          exact hk ((contains_iff _ _).mp hd)
        have hy' : y ∈ rest := by
          rcases List.mem_cons.mp hy with he | h
          · exact absurd he.symm hsy
          · exact h
        exact ih drawn hk hy'
      · rename_i hd
        by_cases hsy : sid = y
        · subst hsy
          obtain ⟨h1, h2⟩ := spouseConnLoop_count_zero cards x x sid rest
            (pairKey x sid :: drawn) (List.mem_cons_self _ _)
          refine ⟨?_, h2⟩
          have hm : pairMatch x sid (x, sid) = true := by
            simp [pairMatch]
          show List.countP (pairMatch x sid)
              ((x, sid) :: (spouseConnLoop cards x rest (pairKey x sid :: drawn)).1) = 1
          exact (List.countP_cons_of_pos _ _ (by simp [hm])).trans (by rw [h1])
        · have hkey : pairKey x sid ≠ pairKey x y := by
            intro he
            exact hsy (hinj sid hsidc he)
          have hk' : pairKey x y ∉ pairKey x sid :: drawn := by
            intro h
            rcases List.mem_cons.mp h with he | h
            · exact hkey he.symm
            · exact hk h
          have hy' : y ∈ rest := by
            rcases List.mem_cons.mp hy with he | h
            · exact absurd he.symm hsy
            · exact h
          obtain ⟨h1, h2⟩ := ih (pairKey x sid :: drawn) hk' hy'
          refine ⟨?_, h2⟩
          have hm : pairMatch x y (x, sid) = false := by
            cases hb : pairMatch x y (x, sid)
            · rfl
            · exact absurd (pairMatch_key hb) hkey
          show List.countP (pairMatch x y)
              ((x, sid) :: (spouseConnLoop cards x rest (pairKey x sid :: drawn)).1) = 1
          exact (List.countP_cons_of_neg _ _ (by simp [hm])).trans h1

theorem pairMatch_comm (x y : String) (e : String × String) :
    pairMatch x y e = pairMatch y x e := by
  unfold pairMatch
  rw [Bool.or_comm]

/-- Once the pair key is recorded, the remaining cards emit no further
connector for the pair. -/
theorem spouseConnAux_count_zero (cards : List String) (people : List Person)
    (x y : String) :
    ∀ rest drawn, pairKey x y ∈ drawn →
      (spouseConnAux cards people rest drawn).countP (pairMatch x y) = 0 := by
  intro rest
  induction rest with
  | nil =>
    intro drawn _
    rfl
  | cons pid rest ih =>
    intro drawn hk
    simp only [spouseConnAux]
    cases hm : mapGet people pid with
    | none => exact ih drawn hk
    | some person =>
      obtain ⟨h1, h2⟩ := spouseConnLoop_count_zero cards pid x y person.spouses drawn hk
      show ((spouseConnLoop cards pid person.spouses drawn).1 ++
          spouseConnAux cards people rest
            (spouseConnLoop cards pid person.spouses drawn).2).countP (pairMatch x y) = 0
      rw [List.countP_append, h1, ih _ h2]

/-- With injective pair keys over the cards, a linked carded pair whose
key is still fresh gets exactly one connector from the remaining cards. -/
theorem spouseConnAux_count_one (cards : List String) (people : List Person)
    (hids : (people.map (fun p => p.id)).Nodup)
    (hkeyinj : ∀ x ∈ cards, ∀ y ∈ cards, ∀ z ∈ cards, ∀ w ∈ cards,
        pairKey x y = pairKey z w → (x = z ∧ y = w) ∨ (x = w ∧ y = z))
    (A B : Person) (hA : A ∈ people) (hB : B ∈ people)
    (hABid : A.id ≠ B.id) (hAc : A.id ∈ cards) (hBc : B.id ∈ cards) :
    ∀ rest drawn, (∀ q ∈ rest, q ∈ cards) →
      pairKey A.id B.id ∉ drawn →
      ((A.id ∈ rest ∧ B.id ∈ A.spouses) ∨ (B.id ∈ rest ∧ A.id ∈ B.spouses)) →
      (spouseConnAux cards people rest drawn).countP (pairMatch A.id B.id) = 1 := by
  intro rest
  induction rest with
  | nil =>
    intro drawn _ _ hmem
    rcases hmem with ⟨h, _⟩ | ⟨h, _⟩ <;> simp at h
  | cons pid rest ih =>
    intro drawn hcards hk hmem
    have hcards' : ∀ q ∈ rest, q ∈ cards := fun q hq => hcards q (List.mem_cons_of_mem _ hq)
    have hpidc : pid ∈ cards := hcards pid (List.mem_cons_self _ _)
    simp only [spouseConnAux]
    cases hm : mapGet people pid with
    | none =>
      have hpA : pid ≠ A.id := by
        intro he
        rw [he, mapGet_of_nodup hids hA] at hm
        cases hm
      have hpB : pid ≠ B.id := by
        intro he
        rw [he, mapGet_of_nodup hids hB] at hm
        cases hm
      have hmem' : (A.id ∈ rest ∧ B.id ∈ A.spouses) ∨ (B.id ∈ rest ∧ A.id ∈ B.spouses) := by
        rcases hmem with ⟨h, hs⟩ | ⟨h, hs⟩
        · rcases List.mem_cons.mp h with he | h
          · exact absurd he.symm hpA
          · exact Or.inl ⟨h, hs⟩
        · rcases List.mem_cons.mp h with he | h
          · exact absurd he.symm hpB
          · exact Or.inr ⟨h, hs⟩
      exact ih drawn hcards' hk hmem'
    | some person =>
      show ((spouseConnLoop cards pid person.spouses drawn).1 ++
          spouseConnAux cards people rest
            (spouseConnLoop cards pid person.spouses drawn).2).countP (pairMatch A.id B.id) = 1
      rw [List.countP_append]
      by_cases hpA : pid = A.id
      · subst hpA
        have hperson : person = A := by
          rw [mapGet_of_nodup hids hA] at hm
          injection hm with h
          exact h.symm
        subst hperson
        by_cases hBsp : B.id ∈ person.spouses
        · have hinj : ∀ sid ∈ cards, pairKey person.id sid = pairKey person.id B.id → sid = B.id := by
            intro sid hsid he
            rcases hkeyinj person.id hAc sid hsid person.id hAc B.id hBc he with ⟨_, h2⟩ | ⟨h1, _⟩
            · exact h2
            · exact absurd h1 hABid
          obtain ⟨h1, h2⟩ := spouseConnLoop_count_one cards person.id B.id hABid hBc hinj
            person.spouses drawn hk hBsp
          rw [h1, spouseConnAux_count_zero cards people person.id B.id rest _ h2]
        · have hmem' : B.id ∈ rest ∧ person.id ∈ B.spouses := by
            rcases hmem with ⟨h, hs⟩ | ⟨h, hs⟩
            · exact absurd hs hBsp
            · rcases List.mem_cons.mp h with he | h
              · exact absurd he (Ne.symm hABid)
              · exact ⟨h, hs⟩
          have hno : ∀ sid ∈ person.spouses, sid ∈ cards →
              pairKey person.id sid ≠ pairKey person.id B.id := by
            intro sid hsid hsc he
            rcases hkeyinj person.id hAc sid hsc person.id hAc B.id hBc he with ⟨_, h2⟩ | ⟨h1, _⟩
            · rw [h2] at hsid
              exact hBsp hsid
            · exact absurd h1 hABid
          obtain ⟨h1, h2⟩ := spouseConnLoop_count_fresh cards person.id person.id B.id
            person.spouses drawn hk hno
          rw [h1, ih _ hcards' h2 (Or.inr hmem')]
      · by_cases hpB : pid = B.id
        · subst hpB
          have hperson : person = B := by
            rw [mapGet_of_nodup hids hB] at hm
            injection hm with h
            exact h.symm
          subst hperson
          by_cases hAsp : A.id ∈ person.spouses
          · have hinj : ∀ sid ∈ cards, pairKey person.id sid = pairKey person.id A.id → sid = A.id := by
              intro sid hsid he
              rcases hkeyinj person.id hBc sid hsid person.id hBc A.id hAc he with ⟨_, h2⟩ | ⟨h1, _⟩
              · exact h2
              · exact absurd h1 (Ne.symm hABid)
            have hk' : pairKey person.id A.id ∉ drawn := by
              rw [pairKey_comm]
              exact hk
            obtain ⟨h1, h2⟩ := spouseConnLoop_count_one cards person.id A.id (Ne.symm hABid)
              hAc hinj person.spouses drawn hk' hAsp
            have hpm : pairMatch A.id person.id = pairMatch person.id A.id :=
              funext (pairMatch_comm _ _)
            rw [hpm, h1, spouseConnAux_count_zero cards people person.id A.id rest _ h2]
          · have hmem' : A.id ∈ rest ∧ person.id ∈ A.spouses := by
              rcases hmem with ⟨h, hs⟩ | ⟨h, hs⟩
              · rcases List.mem_cons.mp h with he | h
                · exact absurd he hABid
                · exact ⟨h, hs⟩
              · exact absurd hs hAsp
            have hno : ∀ sid ∈ person.spouses, sid ∈ cards →
                pairKey person.id sid ≠ pairKey A.id person.id := by
              intro sid hsid hsc he
              rcases hkeyinj person.id hBc sid hsc A.id hAc person.id hBc he with ⟨h1, _⟩ | ⟨_, h2⟩
              · exact absurd h1 (Ne.symm hABid)
              · rw [h2] at hsid
                exact hAsp hsid
            obtain ⟨h1, h2⟩ := spouseConnLoop_count_fresh cards person.id A.id person.id
              person.spouses drawn hk hno
            rw [h1, ih _ hcards' h2 (Or.inl hmem')]
        · have hno : ∀ sid ∈ person.spouses, sid ∈ cards →
              pairKey pid sid ≠ pairKey A.id B.id := by
            intro sid hsid hsc he
            rcases hkeyinj pid hpidc sid hsc A.id hAc B.id hBc he with ⟨h1, _⟩ | ⟨h1, _⟩
            · exact hpA h1
            · exact hpB h1
          obtain ⟨h1, h2⟩ := spouseConnLoop_count_fresh cards pid A.id B.id
            person.spouses drawn hk hno
          have hmem' : (A.id ∈ rest ∧ B.id ∈ A.spouses) ∨ (B.id ∈ rest ∧ A.id ∈ B.spouses) := by
            rcases hmem with ⟨h, hs⟩ | ⟨h, hs⟩
            · rcases List.mem_cons.mp h with he | h
              · exact absurd he.symm hpA
              · exact Or.inl ⟨h, hs⟩
            · rcases List.mem_cons.mp h with he | h
              · exact absurd he.symm hpB
              · exact Or.inr ⟨h, hs⟩
          rw [h1, ih _ hcards' h2 hmem']

/-- C9: for every unordered pair of distinct carded persons linked by a
spouse entry in at least one direction, exactly one spouse connector is
emitted — provided the canonical pair keys are injective over the carded
ids (the amendment: ids containing the `"__"` join separator can collide,
as `spouseConnectorsOnce_peopleC9_fails` shows). -/
theorem drawSpouseConnectors_once (cards : List String) (people : List Person)
    (hids : (people.map (fun p => p.id)).Nodup)
    (hkeyinj : ∀ x ∈ cards, ∀ y ∈ cards, ∀ z ∈ cards, ∀ w ∈ cards,
        pairKey x y = pairKey z w → (x = z ∧ y = w) ∨ (x = w ∧ y = z))
    (A B : Person) (hA : A ∈ people) (hB : B ∈ people)
    (hABid : A.id ≠ B.id) (hAc : A.id ∈ cards) (hBc : B.id ∈ cards)
    (hsp : B.id ∈ A.spouses ∨ A.id ∈ B.spouses) :
    connectorsFor (drawSpouseConnectors cards people) A.id B.id = 1 := by
  have hmem : (A.id ∈ cards ∧ B.id ∈ A.spouses) ∨ (B.id ∈ cards ∧ A.id ∈ B.spouses) := by
    rcases hsp with h | h
    · exact Or.inl ⟨hAc, h⟩
    · exact Or.inr ⟨hBc, h⟩
  exact spouseConnAux_count_one cards people hids hkeyinj A B hA hB hABid hAc hBc
    cards [] (fun q hq => hq) (List.not_mem_nil _) hmem

/-- A collision-free store: the mutual pair `a`–`b` plus a bystander. -/
def peopleC9W : List Person := [
  ⟨"a", "A", "", [], [], ["b"], some 1, ""⟩,
  ⟨"b", "B", "", [], [], ["a"], some 1, ""⟩,
  ⟨"c", "C", "", [], [], [], some 1, ""⟩]

def cardsC9W : List String := ["a", "b", "c"]

theorem drawSpouseConnectors_once_witness :
    (peopleC9W.map (fun p => p.id)).Nodup ∧
    (∀ x ∈ cardsC9W, ∀ y ∈ cardsC9W, ∀ z ∈ cardsC9W, ∀ w ∈ cardsC9W,
        pairKey x y = pairKey z w → (x = z ∧ y = w) ∨ (x = w ∧ y = z)) ∧
    connectorsFor (drawSpouseConnectors cardsC9W peopleC9W) "a" "b" = 1 :=
  ⟨by decide, by decide,
    drawSpouseConnectors_once cardsC9W peopleC9W (by decide) (by decide)
      ⟨"a", "A", "", [], [], ["b"], some 1, ""⟩
      ⟨"b", "B", "", [], [], ["a"], some 1, ""⟩
      (by decide) (by decide) (by decide) (by decide) (by decide) (by decide)⟩

/-! ## Claim C8: every person receives a position -/

theorem posHas_posSet_self (pos : List (String × Pos)) (i : String) (q : Pos) :
    posHas (posSet pos i q) i = true := by
  simp [posHas, posSet]

theorem posHas_posSet_of (pos : List (String × Pos)) (i : String) (q : Pos)
    (j : String) (h : posHas pos j = true) : posHas (posSet pos i q) j = true := by
  simp only [posHas, posSet, List.any_cons]
  simp only [posHas] at h
  simp [h]

theorem posHas_posSet_other {pos : List (String × Pos)} {i : String} {q : Pos}
    {j : String} (h : i ≠ j) : posHas (posSet pos i q) j = posHas pos j := by
  simp [posHas, posSet, List.any_cons, h]

/-- Invariant of the layout recursion: positions only grow, every queue
member ends positioned, and anyone newly positioned has all their
resolved children positioned in the final map. -/
theorem calculatePositions_closure (cfg : LayoutConfig) (people : List Person)
    (hids : (people.map (fun p => p.id)).Nodup) :
    ∀ fuel queue x y pos out,
      (∀ q ∈ queue, q ∈ people) →
      calculatePositions cfg people fuel queue x y pos = some out →
      (∀ i, posHas pos i = true → posHas out i = true) ∧
      (∀ q ∈ queue, posHas out q.id = true) ∧
      (∀ p ∈ people, posHas out p.id = true →
        posHas pos p.id = true ∨
        (∀ cid ∈ p.children, ∀ c, mapGet people cid = some c →
          posHas out c.id = true)) := by
  intro fuel
  induction fuel with
  | zero =>
    intro queue x y pos out hq heq
    cases queue with
    | nil =>
      simp only [calculatePositions] at heq
      injection heq with h
      subst h
      refine ⟨fun i h => h, ?_, fun p _ hout => Or.inl hout⟩
      intro q hmem
      exact absurd hmem (List.not_mem_nil _)
    | cons person rest =>
      simp only [calculatePositions] at heq
      cases heq
  | succ fuel ih =>
    intro queue x y pos out hq heq
    cases queue with
    | nil =>
      simp only [calculatePositions] at heq
      injection heq with h
      subst h
      refine ⟨fun i h => h, ?_, fun p _ hout => Or.inl hout⟩
      intro q hmem
      exact absurd hmem (List.not_mem_nil _)
    | cons person rest =>
      have hperson : person ∈ people := hq person (List.mem_cons_self _ _)
      have hrest : ∀ q ∈ rest, q ∈ people := fun q h => hq q (List.mem_cons_of_mem _ h)
      simp only [calculatePositions] at heq
      split at heq
      · cases heq
      · rename_i pos2 hsome
        split at hsome
        · rename_i hlen
          have hchq : ∀ q ∈ ((person.children.filterMap fun cid => mapGet people cid).filter
              fun c => ¬ posHas pos c.id), q ∈ people := by
            intro q hq'
            obtain ⟨hq'', _⟩ := List.mem_filter.mp hq'
            obtain ⟨cid, _, hres⟩ := List.mem_filterMap.mp hq''
            exact mapGet_mem hres
          obtain ⟨mono1, done1, close1⟩ := ih _ _ _ _ _ hchq hsome
          obtain ⟨mono2, done2, close2⟩ := ih _ _ _ _ _ hrest heq
          refine ⟨?_, ?_, ?_⟩
          · intro i h
            exact mono2 i (mono1 i (posHas_posSet_of _ _ _ _ h))
          · intro q hmem
            rcases List.mem_cons.mp hmem with he | hm
            · rw [he]
              exact mono2 _ (mono1 _ (posHas_posSet_self _ _ _))
            · exact done2 q hm
          · intro p hp hout
            by_cases hpp : posHas pos p.id = true
            · exact Or.inl hpp
            · right
              by_cases hpid : p.id = person.id
              · have hpe : p = person := id_inj_of_nodup hids hp hperson hpid
                intro cid hcid c hres
                by_cases hcpos : posHas pos c.id = true
                · exact mono2 _ (mono1 _ (posHas_posSet_of _ _ _ _ hcpos))
                · have hcmem : c ∈ (person.children.filterMap fun cid => mapGet people cid) :=
                    List.mem_filterMap.mpr ⟨cid, by rw [← hpe]; exact hcid, hres⟩
                  have hcf : c ∈ ((person.children.filterMap fun cid => mapGet people cid).filter
                      fun c => ¬ posHas pos c.id) :=
                    List.mem_filter.mpr ⟨hcmem, by simp [hcpos]⟩
                  exact mono2 _ (done1 c hcf)
              · rcases close2 p hp hout with h2 | h2
                · rcases close1 p hp h2 with h1 | h1
                  · rw [posHas_posSet_other (fun he => hpid he.symm)] at h1
                    exact absurd h1 hpp
                  · intro cid hcid c hres
                    exact mono2 _ (h1 cid hcid c hres)
                · exact h2
        · rename_i hlen
          injection hsome with hps
          subst hps
          obtain ⟨mono2, done2, close2⟩ := ih _ _ _ _ _ hrest heq
          refine ⟨?_, ?_, ?_⟩
          · intro i h
            exact mono2 i (posHas_posSet_of _ _ _ _ h)
          · intro q hmem
            rcases List.mem_cons.mp hmem with he | hm
            · rw [he]
              exact mono2 _ (posHas_posSet_self _ _ _)
            · exact done2 q hm
          · intro p hp hout
            by_cases hpp : posHas pos p.id = true
            · exact Or.inl hpp
            · right
              by_cases hpid : p.id = person.id
              · have hpe : p = person := id_inj_of_nodup hids hp hperson hpid
                intro cid hcid c hres
                by_cases hcpos : posHas pos c.id = true
                · exact mono2 _ (posHas_posSet_of _ _ _ _ hcpos)
                · exfalso
                  have hcmem : c ∈ (person.children.filterMap fun cid => mapGet people cid) :=
                    List.mem_filterMap.mpr ⟨cid, by rw [← hpe]; exact hcid, hres⟩
                  have hcf : c ∈ ((person.children.filterMap fun cid => mapGet people cid).filter
                      fun c => ¬ posHas pos c.id) :=
                    List.mem_filter.mpr ⟨hcmem, by simp [hcpos]⟩
                  have : 0 < ((person.children.filterMap fun cid => mapGet people cid).filter
                      fun c => ¬ posHas pos c.id).length :=
                    List.length_pos.mpr (List.ne_nil_of_mem hcf)
                  exact hlen this
              · rcases close2 p hp hout with h2 | h2
                · rw [posHas_posSet_other (fun he => hpid he.symm)] at h2
                  exact absurd h2 hpp
                · exact h2

/-- Reachability along resolving child links from a generation-1 root:
exactly the people the layout traversal can ever visit. -/
inductive Reach (people : List Person) : Person → Prop
  | root (p : Person) (hp : p ∈ people) (hg : genOr1 p.generation = 1) :
      Reach people p
  | child (p c : Person) (cid : String) (hp : Reach people p)
      (hcid : cid ∈ p.children) (hres : mapGet people cid = some c) :
      Reach people c

/-- The claim as stated: after the layout run, every person of the store
has a position entry. -/
def layoutCovers (cfg : LayoutConfig) (people : List Person) (fuel : Nat) : Prop :=
  ∀ p ∈ people, posHas ((layoutRender cfg people fuel).getD []) p.id = true

/-- The desktop configuration of script.js. -/
def cfgC8 : LayoutConfig := ⟨220, 120, 120, 60⟩

/-- `a` is nobody's child and not generation 1, so the traversal never
visits it, even though the run completes. -/
def peopleC8 : List Person := [
  ⟨"r", "R", "", [], ["b"], [], some 1, ""⟩,
  ⟨"b", "B", "", ["r"], [], ["a"], some 2, ""⟩,
  ⟨"a", "A", "", [], [], ["b"], some 2, ""⟩]

theorem layoutCovers_peopleC8_fails :
    (layoutRender cfgC8 peopleC8 10).isSome = true ∧
    ¬ layoutCovers cfgC8 peopleC8 10 := by
  unfold layoutCovers
  exact ⟨by decide, by decide⟩

/-- C8: the layout positions exactly what the traversal reaches — when
the run completes, every person reachable from a generation-1 person via
resolving child links has a position entry (the amendment: unreachable
people, e.g. spouses who are nobody's child, get none, as
`layoutCovers_peopleC8_fails` shows). -/
theorem layoutRender_covers_reachable (cfg : LayoutConfig) (people : List Person)
    (fuel : Nat)
    (hids : (people.map (fun p => p.id)).Nodup)
    (hrun : (layoutRender cfg people fuel).isSome = true) :
    ∀ p, Reach people p →
      posHas ((layoutRender cfg people fuel).getD []) p.id = true := by
  obtain ⟨out, heq⟩ := Option.isSome_iff_exists.mp hrun
  have hgd : (layoutRender cfg people fuel).getD [] = out := by
    rw [heq]
    rfl
  rw [hgd]
  obtain ⟨hmono, hdone, hclose⟩ := calculatePositions_closure cfg people hids fuel
    (people.filter fun p => genOr1 p.generation = 1) 0 0 [] out
    (fun q hq => (List.mem_filter.mp hq).1) heq
  have hmem : ∀ q, Reach people q → q ∈ people := by
    intro q h
    induction h with
    | root p hp _ => exact hp
    | child p c cid _ _ hres _ => exact mapGet_mem hres
  intro p hr
  induction hr with
  | root p hp hg =>
    exact hdone p (List.mem_filter.mpr ⟨hp, by simp [hg]⟩)
  | child p c cid hrp hcid hres ih =>
    rcases hclose p (hmem p hrp) ih with h | h
    · simp [posHas] at h
    · exact h cid hcid c hres

/-- A two-person chain: root `r` with child `c`. -/
def peopleC8W : List Person := [
  ⟨"r", "R", "", [], ["c"], [], some 1, ""⟩,
  ⟨"c", "C", "", ["r"], [], [], some 2, ""⟩]

theorem layoutRender_covers_reachable_witness :
    (peopleC8W.map (fun p => p.id)).Nodup ∧
    (layoutRender cfgC8 peopleC8W 5).isSome = true ∧
    posHas ((layoutRender cfgC8 peopleC8W 5).getD []) "c" = true :=
  ⟨by decide, by decide,
    layoutRender_covers_reachable cfgC8 peopleC8W 5 (by decide) (by decide)
      ⟨"c", "C", "", ["r"], [], [], some 2, ""⟩
      (Reach.child ⟨"r", "R", "", [], ["c"], [], some 1, ""⟩
        ⟨"c", "C", "", ["r"], [], [], some 2, ""⟩ "c"
        (Reach.root ⟨"r", "R", "", [], ["c"], [], some 1, ""⟩ (by decide) (by decide))
        (by decide) (by decide))⟩

/-! ## Claim C7: sibling spans and parent centering in the layout -/

/-- A resolving parent-to-child chain of a given length. -/
inductive Chain (people : List Person) : Person → Person → Nat → Prop
  | refl (p : Person) : Chain people p p 0
  | step (p q c : Person) (cid : String) (n : Nat) (h : Chain people p q n)
      (hcid : cid ∈ q.children) (hres : mapGet people cid = some c) :
      Chain people p c (n + 1)

theorem chain_mem {people : List Person} {p d : Person} {n : Nat}
    (h : Chain people p d n) (hp : p ∈ people) : d ∈ people := by
  induction h with
  | refl => exact hp
  | step q c cid n h hcid hres ih => exact mapGet_mem hres

/-- Extend a chain by one resolving child edge at the front. -/
theorem chain_prepend {people : List Person} {p c d : Person} {cid : String} {n : Nat}
    (hcid : cid ∈ p.children) (hres : mapGet people cid = some c)
    (h : Chain people c d n) : Chain people p d (n + 1) := by
  induction h with
  | refl => exact Chain.step p p c cid 0 (Chain.refl p) hcid hres
  | step r e cid2 m h2 hcid2 hres2 ih =>
    exact Chain.step p r e cid2 (m + 1) ih hcid2 hres2

/-- Peel the first edge off a nonempty chain. -/
theorem chain_front {people : List Person} :
    ∀ n (p d : Person), Chain people p d (n + 1) →
      ∃ cid c, cid ∈ p.children ∧ mapGet people cid = some c ∧ Chain people c d n := by
  intro n
  induction n with
  | zero =>
    intro p d h
    cases h with
    | step q c cid n h2 hcid hres =>
      cases h2 with
      | refl => exact ⟨cid, d, hcid, hres, Chain.refl d⟩
  | succ m ih =>
    intro p d h
    cases h with
    | step q c cid n h2 hcid hres =>
      obtain ⟨cid0, c0, hc0, hres0, hch⟩ := ih p q h2
      exact ⟨cid0, c0, hc0, hres0, Chain.step c0 q d cid m hch hcid hres⟩

/-- Under the child generation rule, a chain of length `n` raises the
(defaulted) generation by exactly `n`. -/
theorem chain_gen {people : List Person}
    (hgen : ∀ p ∈ people, ∀ cid ∈ p.children, ∀ c, mapGet people cid = some c →
      genOr1 c.generation = genOr1 p.generation + 1)
    {p d : Person} {n : Nat}
    (h : Chain people p d n) (hp : p ∈ people) :
    genOr1 d.generation = genOr1 p.generation + n := by
  induction h with
  | refl => rfl
  | step q c cid n h hcid hres ih =>
    have hq : q ∈ people := chain_mem h hp
    rw [hgen q hq cid hcid c hres, ih]
    omega

/-- With unique parents, chains of equal length into the same person
start at the same person. -/
theorem chain_unique {people : List Person}
    (huniq : ∀ p ∈ people, ∀ q ∈ people, ∀ cid, cid ∈ p.children → cid ∈ q.children → p = q) :
    ∀ n (p1 p2 d : Person), p1 ∈ people → p2 ∈ people →
      Chain people p1 d n → Chain people p2 d n → p1 = p2 := by
  intro n
  induction n with
  | zero =>
    intro p1 p2 d _ _ h1 h2
    cases h1
    cases h2
    rfl
  | succ m ih =>
    intro p1 p2 d hp1 hp2 h1 h2
    cases h1 with
    | step q1 c cid1 n1 h1' hcid1 hres1 =>
      cases h2 with
      | step q2 c2 cid2 n2 h2' hcid2 hres2 =>
        have hq1 : q1 ∈ people := chain_mem h1' hp1
        have hq2 : q2 ∈ people := chain_mem h2' hp2
        have hid1 : d.id = cid1 := mapGet_id hres1
        have hid2 : d.id = cid2 := mapGet_id hres2
        have hcd1 : d.id ∈ q1.children := by rw [hid1]; exact hcid1
        have hcd2 : d.id ∈ q2.children := by rw [hid2]; exact hcid2
        have hqq : q1 = q2 := huniq q1 hq1 q2 hq2 d.id hcd1 hcd2
        subst hqq
        exact ih p1 p2 q1 hp1 hp2 h1' h2'

theorem posGet_posSet_self (pos : List (String × Pos)) (i : String) (q : Pos) :
    posGet (posSet pos i q) i = some q := by
  simp [posGet, posSet]

theorem posGet_posSet_other {pos : List (String × Pos)} {i : String} {q : Pos}
    {j : String} (h : i ≠ j) : posGet (posSet pos i q) j = posGet pos j := by
  simp [posGet, posSet, h]

theorem posHas_of_posGet {pos : List (String × Pos)} {i : String} {q : Pos}
    (h : posGet pos i = some q) : posHas pos i = true := by
  induction pos with
  | nil => simp [posGet] at h
  | cons e rest ih =>
    obtain ⟨j, v⟩ := e
    simp only [posGet] at h
    by_cases hji : j = i
    · simp [posHas, hji]
    · rw [if_neg hji] at h
      have := ih h
      simp only [posHas, List.any_cons] at this ⊢
      simp [this]

/-- The resolved children of a person, in child-list order. -/
def childBlock (people : List Person) (p : Person) : List Person :=
  p.children.filterMap (fun cid => mapGet people cid)

theorem childBlock_mem {people : List Person} {p c : Person}
    (h : c ∈ childBlock people p) :
    ∃ cid ∈ p.children, mapGet people cid = some c :=
  List.mem_filterMap.mp h

theorem childBlock_chain {people : List Person} {p c : Person}
    (h : c ∈ childBlock people p) : Chain people p c 1 := by
  obtain ⟨cid, hcid, hres⟩ := childBlock_mem h
  exact Chain.step p p c cid 0 (Chain.refl p) hcid hres

theorem childBlock_subset {people : List Person} {p c : Person}
    (h : c ∈ childBlock people p) : c ∈ people := by
  obtain ⟨cid, _, hres⟩ := childBlock_mem h
  exact mapGet_mem hres

/-- The ids of the resolved children are the resolving child ids. -/
theorem childBlock_ids (people : List Person) :
    ∀ l : List String,
      (l.filterMap (fun cid => mapGet people cid)).map (fun c => c.id) =
      l.filter (fun cid => (mapGet people cid).isSome) := by
  intro l
  induction l with
  | nil => rfl
  | cons cid rest ih =>
    cases hm : mapGet people cid with
    | none =>
      rw [List.filterMap_cons, hm, List.filter_cons]
      simp [hm, ih]
    | some c =>
      rw [List.filterMap_cons, hm, List.filter_cons]
      simp only [hm, Option.isSome_some, if_pos, List.map_cons, ih]
      simp [mapGet_id hm]

theorem childBlock_nodup {people : List Person} {p : Person}
    (hchn : p.children.Nodup) :
    ((childBlock people p).map (fun c => c.id)).Nodup := by
  unfold childBlock
  rw [childBlock_ids]
  exact hchn.filter _

theorem filter_unpositioned_eq {pos : List (String × Pos)} {l : List Person}
    (h : ∀ c ∈ l, posHas pos c.id = false) :
    l.filter (fun c => ¬ posHas pos c.id) = l := by
  apply List.filter_eq_self.mpr
  intro c hc
  simp [h c hc]

theorem chain_zero {people : List Person} {p d : Person}
    (h : Chain people p d 0) : p = d := by
  cases h
  rfl

theorem posHas_posSet_iff {pos : List (String × Pos)} {i j : String} {q : Pos} :
    posHas (posSet pos i q) j = true ↔ i = j ∨ posHas pos j = true := by
  simp [posHas, posSet, List.any_cons]

/-- The slot invariant of the layout recursion: assuming unique ids,
duplicate-free child lists, unique parents and the child generation rule,
a queue of same-generation people whose descendants are all unpositioned
is laid out as follows — old entries are untouched, only descendants of
queue members are added, member `j` lands at slot `x + j*(W+G)`, and every
descendant with a nonempty child block is horizontally centered over its
block, whose members sit at consecutive slots one band down. -/
theorem calculatePositions_slots (cfg : LayoutConfig) (people : List Person)
    (hids : (people.map (fun p => p.id)).Nodup)
    (hchn : ∀ p ∈ people, p.children.Nodup)
    (huniq : ∀ p ∈ people, ∀ q ∈ people, ∀ cid, cid ∈ p.children → cid ∈ q.children → p = q)
    (hgen : ∀ p ∈ people, ∀ cid ∈ p.children, ∀ c, mapGet people cid = some c →
      genOr1 c.generation = genOr1 p.generation + 1) :
    ∀ fuel queue g x y pos out,
      (∀ q ∈ queue, q ∈ people) →
      (queue.map (fun q => q.id)).Nodup →
      (∀ q ∈ queue, genOr1 q.generation = g) →
      (∀ q ∈ queue, ∀ d n, Chain people q d n → posHas pos d.id = false) →
      calculatePositions cfg people fuel queue x y pos = some out →
      ((∀ i, posHas pos i = true → posGet out i = posGet pos i) ∧
       (∀ i, posHas out i = true → posHas pos i = true ∨
         ∃ q ∈ queue, ∃ d n, Chain people q d n ∧ d.id = i) ∧
       (∀ j (hj : j < queue.length),
         posGet out (queue.get ⟨j, hj⟩).id =
           some ⟨x + (j : ℚ) * (cfg.nodeWidth + cfg.horizontalGap), y⟩) ∧
       (∀ q ∈ queue, ∀ p n, Chain people q p n →
         0 < (childBlock people p).length →
         ∃ pp, posGet out p.id = some pp ∧
           ∀ j (hj : j < (childBlock people p).length),
             posGet out ((childBlock people p).get ⟨j, hj⟩).id =
               some ⟨pp.x - (((childBlock people p).length : ℚ) - 1) *
                       (cfg.nodeWidth + cfg.horizontalGap) / 2 +
                     (j : ℚ) * (cfg.nodeWidth + cfg.horizontalGap),
                     pp.y + cfg.nodeHeight + cfg.verticalGap⟩)) := by
  intro fuel
  induction fuel with
  | zero =>
    intro queue g x y pos out hq hnod hgens h45 heq
    cases queue with
    | nil =>
      simp only [calculatePositions] at heq
      injection heq with h
      subst h
      refine ⟨fun i _ => rfl, fun i hi => Or.inl hi, ?_, ?_⟩
      · intro j hj
        simp at hj
      · intro q hq'
        exact absurd hq' (List.not_mem_nil _)
    | cons person rest =>
      simp only [calculatePositions] at heq
      cases heq
  | succ fuel ih =>
    intro queue g x y pos out hq hnod hgens h45 heq
    cases queue with
    | nil =>
      simp only [calculatePositions] at heq
      injection heq with h
      subst h
      refine ⟨fun i _ => rfl, fun i hi => Or.inl hi, ?_, ?_⟩
      · intro j hj
        simp at hj
      · intro q hq'
        exact absurd hq' (List.not_mem_nil _)
    | cons person rest =>
      have hperson : person ∈ people := hq person (List.mem_cons_self _ _)
      have hrest : ∀ q ∈ rest, q ∈ people := fun q h => hq q (List.mem_cons_of_mem _ h)
      have hgenp : genOr1 person.generation = g := hgens person (List.mem_cons_self _ _)
      have hgensr : ∀ q ∈ rest, genOr1 q.generation = g :=
        fun q h => hgens q (List.mem_cons_of_mem _ h)
      have h45p : ∀ d n, Chain people person d n → posHas pos d.id = false :=
        h45 person (List.mem_cons_self _ _)
      have h45r : ∀ q ∈ rest, ∀ d n, Chain people q d n → posHas pos d.id = false :=
        fun q h => h45 q (List.mem_cons_of_mem _ h)
      simp only [List.map_cons, List.nodup_cons] at hnod
      obtain ⟨hpid_nin, hnodr⟩ := hnod
      have hposp : posHas pos person.id = false := h45p person 0 (Chain.refl person)
      -- a queue member other than the head never equals the head
      have hper_ne : ∀ q ∈ rest, person.id ≠ q.id := by
        intro q hq' he
        exact hpid_nin (he ▸ List.mem_map.mpr ⟨q, hq', rfl⟩)
      simp only [calculatePositions] at heq
      have hfid : ((person.children.filterMap fun cid => mapGet people cid).filter
          fun c => ¬ posHas pos c.id) = childBlock people person := by
        apply filter_unpositioned_eq
        intro c hc
        exact h45p c 1 (childBlock_chain hc)
      rw [hfid] at heq
      split at heq
      · cases heq
      · rename_i pos2 hsome
        split at hsome
        · rename_i hlen
          -- descendants of the child block are fresh in pos1
          have h45c : ∀ c ∈ childBlock people person, ∀ d n, Chain people c d n →
              posHas (posSet pos person.id ⟨x, y⟩) d.id = false := by
            intro c hc d n hch
            obtain ⟨cid, hcid, hres⟩ := childBlock_mem hc
            have hchp : Chain people person d (n + 1) := chain_prepend hcid hres hch
            have hdpos : posHas pos d.id = false := h45p d (n + 1) hchp
            have hdne : person.id ≠ d.id := by
              intro he
              have hdmem : d ∈ people := chain_mem hchp hperson
              have hdp : d = person := id_inj_of_nodup hids hdmem hperson he.symm
              subst hdp
              have := chain_gen hgen hchp hperson
              omega
            rw [posHas_posSet_other hdne]
            exact hdpos
          obtain ⟨b1, c1, a1, d1⟩ := ih (childBlock people person) (g + 1) _ _ _ _
            (fun c hc => childBlock_subset hc)
            (childBlock_nodup (hchn person hperson))
            (by
              intro c hc
              obtain ⟨cid, hcid, hres⟩ := childBlock_mem hc
              rw [hgen person hperson cid hcid c hres, hgenp])
            h45c hsome
          obtain ⟨mono1, _, _⟩ := calculatePositions_closure cfg people hids fuel
            (childBlock people person) _ _ _ _ (fun c hc => childBlock_subset hc) hsome
          -- members and descendants of the rest are fresh in pos2
          have h45r2 : ∀ q ∈ rest, ∀ d n, Chain people q d n → posHas pos2 d.id = false := by
            intro q hq' d n hch
            cases hd2 : posHas pos2 d.id with
            | false => rfl
            | true =>
              exfalso
              have hdmem : d ∈ people := chain_mem hch (hrest q hq')
              rcases c1 d.id hd2 with h1 | h1
              · rcases posHas_posSet_iff.mp h1 with h1 | h1
                · have hdp : d = person :=
                    id_inj_of_nodup hids hdmem hperson h1.symm
                  have hgq := chain_gen hgen hch (hrest q hq')
                  rw [hdp, hgensr q hq', hgenp] at hgq
                  have hn0 : n = 0 := by omega
                  subst hn0
                  have hqp : q = person := (chain_zero hch).trans hdp
                  exact hper_ne q hq' (by rw [hqp])
                · exact absurd h1 (by simp [h45r q hq' d n hch])
              · obtain ⟨c, hc, e, m, hchm, hei⟩ := h1
                have hemem : e ∈ people := chain_mem hchm (childBlock_subset hc)
                have hed : e = d := id_inj_of_nodup hids hemem hdmem hei
                subst hed
                obtain ⟨cid, hcid, hres⟩ := childBlock_mem hc
                have hchpm : Chain people person e (m + 1) := chain_prepend hcid hres hchm
                have hg1 := chain_gen hgen hchpm hperson
                have hg2 := chain_gen hgen hch (hrest q hq')
                rw [hgenp] at hg1
                rw [hgensr q hq'] at hg2
                have hnm : n = m + 1 := by omega
                subst hnm
                have : person = q := chain_unique huniq (m + 1) person q e hperson
                  (hrest q hq') hchpm hch
                exact hper_ne q hq' (by rw [this])
          obtain ⟨b2, c2, a2, d2⟩ := ih rest g _ _ _ _ hrest hnodr hgensr h45r2 heq
          obtain ⟨mono2, _, _⟩ := calculatePositions_closure cfg people hids fuel
            rest _ _ _ _ hrest heq
          -- final value of an id already present before this call
          have bfin : ∀ i, posHas pos i = true → posGet out i = posGet pos i := by
            intro i hi
            have hne : person.id ≠ i := by
              intro he
              rw [← he] at hi
              rw [hposp] at hi
              cases hi
            have h1 : posHas (posSet pos person.id ⟨x, y⟩) i = true :=
              posHas_posSet_of _ _ _ _ hi
            have h2 : posHas pos2 i = true := mono1 i h1
            rw [b2 i h2, b1 i h1, posGet_posSet_other hne]
          -- final position of the head of the queue
          have hheadfin : posGet out person.id = some ⟨x, y⟩ := by
            have h1 : posHas (posSet pos person.id ⟨x, y⟩) person.id = true :=
              posHas_posSet_self _ _ _
            have h2 : posHas pos2 person.id = true := mono1 _ h1
            rw [b2 _ h2, b1 _ h1, posGet_posSet_self]
          -- lifting a pos2 value to the final map
          have lift2 : ∀ i v, posGet pos2 i = some v → posGet out i = some v := by
            intro i v hv
            rw [b2 i (posHas_of_posGet hv)]
            exact hv
          refine ⟨bfin, ?_, ?_, ?_⟩
          · intro i hi
            rcases c2 i hi with h1 | h1
            · rcases c1 i h1 with h2 | h2
              · rcases posHas_posSet_iff.mp h2 with h2 | h2
                · right
                  exact ⟨person, List.mem_cons_self _ _, person, 0, Chain.refl person, h2⟩
                · left
                  exact h2
              · obtain ⟨c, hc, e, m, hchm, hei⟩ := h2
                obtain ⟨cid, hcid, hres⟩ := childBlock_mem hc
                right
                exact ⟨person, List.mem_cons_self _ _, e, m + 1,
                  chain_prepend hcid hres hchm, hei⟩
            · obtain ⟨q, hq', e, m, hchm, hei⟩ := h1
              right
              exact ⟨q, List.mem_cons_of_mem _ hq', e, m, hchm, hei⟩
          · intro j hj
            cases j with
            | zero =>
              rw [show x + ((0 : Nat) : ℚ) * (cfg.nodeWidth + cfg.horizontalGap) = x by
                push_cast
                ring]
              exact hheadfin
            | succ j' =>
              have hj' : j' < rest.length := by simpa using hj
              have := a2 j' hj'
              rw [show x + (((j' : Nat) + 1 : Nat) : ℚ) * (cfg.nodeWidth + cfg.horizontalGap) =
                  x + cfg.nodeWidth + cfg.horizontalGap +
                    ((j' : Nat) : ℚ) * (cfg.nodeWidth + cfg.horizontalGap) by
                push_cast
                ring]
              exact this
          · intro q hq' p n hch hblen
            rcases List.mem_cons.mp hq' with he | hm
            · subst he
              cases n with
              | zero =>
                cases hch
                refine ⟨⟨x, y⟩, hheadfin, ?_⟩
                intro j hj
                have := a1 j hj
                exact lift2 _ _ this
              | succ m =>
                obtain ⟨cid, c, hcid, hres, hchm⟩ := chain_front m q p hch
                have hc : c ∈ childBlock people q :=
                  List.mem_filterMap.mpr ⟨cid, hcid, hres⟩
                obtain ⟨pp, hpp, hbl⟩ := d1 c hc p m hchm hblen
                refine ⟨pp, lift2 _ _ hpp, ?_⟩
                intro j hj
                exact lift2 _ _ (hbl j hj)
            · exact d2 q hm p n hch hblen
        · rename_i hlen
          injection hsome with hps
          subst hps
          -- the head has no unpositioned-resolved children: block is empty
          have hbl0 : childBlock people person = [] := by
            cases hbe : childBlock people person with
            | nil => rfl
            | cons c cs =>
              exfalso
              apply hlen
              rw [hbe]
              simp
          have h45r1 : ∀ q ∈ rest, ∀ d n, Chain people q d n →
              posHas (posSet pos person.id ⟨x, y⟩) d.id = false := by
            intro q hq' d n hch
            have hdpos : posHas pos d.id = false := h45r q hq' d n hch
            have hdne : person.id ≠ d.id := by
              intro he
              have hdmem : d ∈ people := chain_mem hch (hrest q hq')
              have hdp : d = person := id_inj_of_nodup hids hdmem hperson he.symm
              have hgq := chain_gen hgen hch (hrest q hq')
              rw [hdp, hgensr q hq', hgenp] at hgq
              have hn0 : n = 0 := by omega
              subst hn0
              have hqp : q = person := (chain_zero hch).trans hdp
              exact hper_ne q hq' (by rw [hqp])
            rw [posHas_posSet_other hdne]
            exact hdpos
          obtain ⟨b2, c2, a2, d2⟩ := ih rest g _ _ _ _ hrest hnodr hgensr h45r1 heq
          have bfin : ∀ i, posHas pos i = true → posGet out i = posGet pos i := by
            intro i hi
            have hne : person.id ≠ i := by
              intro he
              rw [← he] at hi
              rw [hposp] at hi
              cases hi
            have h1 : posHas (posSet pos person.id ⟨x, y⟩) i = true :=
              posHas_posSet_of _ _ _ _ hi
            rw [b2 i h1, posGet_posSet_other hne]
          have hheadfin : posGet out person.id = some ⟨x, y⟩ := by
            have h1 : posHas (posSet pos person.id ⟨x, y⟩) person.id = true :=
              posHas_posSet_self _ _ _
            rw [b2 _ h1, posGet_posSet_self]
          refine ⟨bfin, ?_, ?_, ?_⟩
          · intro i hi
            rcases c2 i hi with h1 | h1
            · rcases posHas_posSet_iff.mp h1 with h1 | h1
              · right
                exact ⟨person, List.mem_cons_self _ _, person, 0, Chain.refl person, h1⟩
              · left
                exact h1
            · obtain ⟨q, hq', e, m, hchm, hei⟩ := h1
              right
              exact ⟨q, List.mem_cons_of_mem _ hq', e, m, hchm, hei⟩
          · intro j hj
            cases j with
            | zero =>
              rw [show x + ((0 : Nat) : ℚ) * (cfg.nodeWidth + cfg.horizontalGap) = x by
                push_cast
                ring]
              exact hheadfin
            | succ j' =>
              have hj' : j' < rest.length := by simpa using hj
              have := a2 j' hj'
              rw [show x + (((j' : Nat) + 1 : Nat) : ℚ) * (cfg.nodeWidth + cfg.horizontalGap) =
                  x + cfg.nodeWidth + cfg.horizontalGap +
                    ((j' : Nat) : ℚ) * (cfg.nodeWidth + cfg.horizontalGap) by
                push_cast
                ring]
              exact this
          · intro q hq' p n hch hblen
            rcases List.mem_cons.mp hq' with he | hm
            · subst he
              cases n with
              | zero =>
                cases hch
                rw [hbl0] at hblen
                simp at hblen
              | succ m =>
                obtain ⟨cid, c, hcid, hres, hchm⟩ := chain_front m q p hch
                have hc : c ∈ childBlock people q :=
                  List.mem_filterMap.mpr ⟨cid, hcid, hres⟩
                rw [hbl0] at hc
                exact absurd hc (List.not_mem_nil _)
            · exact d2 q hm p n hch hblen

/-- Two node boxes occupy disjoint horizontal spans. -/
def boxesDisjoint (cfg : LayoutConfig) (a b : Pos) : Prop :=
  a.x + cfg.nodeWidth ≤ b.x ∨ b.x + cfg.nodeWidth ≤ a.x

/-- C7 as stated, first half: the subtrees of two distinct siblings
occupy disjoint horizontal spans. -/
def chartSiblingSpansOk (cfg : LayoutConfig) (people : List Person) (fuel : Nat) : Prop :=
  ∀ out, layoutRender cfg people fuel = some out →
    ∀ parent ∈ people, ∀ cid1 ∈ parent.children, ∀ cid2 ∈ parent.children,
      ∀ c1 c2, mapGet people cid1 = some c1 → mapGet people cid2 = some c2 →
      c1.id ≠ c2.id →
      ∀ d1 n1 d2 n2, Chain people c1 d1 n1 → Chain people c2 d2 n2 →
      ∀ q1 q2, posGet out d1.id = some q1 → posGet out d2.id = some q2 →
        boxesDisjoint cfg q1 q2

/-- C7 as stated, second half: every positioned parent with positioned
children sits with its midpoint over the midpoint of the children's
combined span. -/
def chartParentsCentered (cfg : LayoutConfig) (people : List Person) (fuel : Nat) : Prop :=
  ∀ out, layoutRender cfg people fuel = some out →
    ∀ parent ∈ people, ∀ pp, posGet out parent.id = some pp →
    ∀ xs, xs = (childBlock people parent).filterMap (fun c => (posGet out c.id).map Pos.x) →
      xs ≠ [] →
      ∃ lo ∈ xs, ∃ hi ∈ xs, (∀ v ∈ xs, lo ≤ v ∧ v ≤ hi) ∧
        pp.x + cfg.nodeWidth / 2 = (lo + (hi + cfg.nodeWidth)) / 2

/-- A three-level forest: `p1` has children `a`, `b`; `a` has three
children, `b` has one. -/
def exC7 : List Person := [
  ⟨"p1", "P1", "", [], ["a", "b"], [], some 1, ""⟩,
  ⟨"a", "A", "", ["p1"], ["c", "d", "e"], [], some 2, ""⟩,
  ⟨"b", "B", "", ["p1"], ["f"], [], some 2, ""⟩,
  ⟨"c", "C", "", ["a"], [], [], some 3, ""⟩,
  ⟨"d", "D", "", ["a"], [], [], some 3, ""⟩,
  ⟨"e", "E", "", ["a"], [], [], some 3, ""⟩,
  ⟨"f", "F", "", ["b"], [], [], some 3, ""⟩]

/-- The coordinates the recursion builds on `exC7` (values: c, d, e at
x = -420, -140, 140 and f also at x = 140, one band below a and b). -/
def cs1C7 : ℚ := 0 - ((((2 : ℕ) : ℚ) - 1) * (cfgC8.nodeWidth + cfgC8.horizontalGap)) / 2

def y1C7 : ℚ := 0 + cfgC8.nodeHeight + cfgC8.verticalGap

def cs2C7 : ℚ := cs1C7 - ((((3 : ℕ) : ℚ) - 1) * (cfgC8.nodeWidth + cfgC8.horizontalGap)) / 2

def y2C7 : ℚ := y1C7 + cfgC8.nodeHeight + cfgC8.verticalGap

def xbC7 : ℚ := cs1C7 + cfgC8.nodeWidth + cfgC8.horizontalGap

def cs3C7 : ℚ := xbC7 - ((((1 : ℕ) : ℚ) - 1) * (cfgC8.nodeWidth + cfgC8.horizontalGap)) / 2

def outC7 : List (String × Pos) :=
  [("f", ⟨cs3C7, y1C7 + cfgC8.nodeHeight + cfgC8.verticalGap⟩), ("b", ⟨xbC7, y1C7⟩),
   ("e", ⟨cs2C7 + cfgC8.nodeWidth + cfgC8.horizontalGap +
      cfgC8.nodeWidth + cfgC8.horizontalGap, y2C7⟩),
   ("d", ⟨cs2C7 + cfgC8.nodeWidth + cfgC8.horizontalGap, y2C7⟩), ("c", ⟨cs2C7, y2C7⟩),
   ("a", ⟨cs1C7, y1C7⟩), ("p1", ⟨0, 0⟩)]

theorem layoutRender_exC7 : layoutRender cfgC8 exC7 10 = some outC7 := rfl

/-- C7 as stated fails: in `exC7`, `e` (a descendant of sibling `a`) and
`f` (a descendant of sibling `b`) are both placed at x = 140, so the two
siblings' subtree spans overlap. -/
theorem chartC7_exC7_fails :
    ¬ (chartSiblingSpansOk cfgC8 exC7 10 ∧ chartParentsCentered cfgC8 exC7 10) := by
  rintro ⟨h, _⟩
  have hq1 : posGet outC7 "e" =
      some ⟨cs2C7 + cfgC8.nodeWidth + cfgC8.horizontalGap +
        cfgC8.nodeWidth + cfgC8.horizontalGap, y2C7⟩ := rfl
  have hq2 : posGet outC7 "f" =
      some ⟨cs3C7, y1C7 + cfgC8.nodeHeight + cfgC8.verticalGap⟩ := rfl
  have hb := h outC7 layoutRender_exC7
    ⟨"p1", "P1", "", [], ["a", "b"], [], some 1, ""⟩ (by decide)
    "a" (by decide) "b" (by decide)
    ⟨"a", "A", "", ["p1"], ["c", "d", "e"], [], some 2, ""⟩
    ⟨"b", "B", "", ["p1"], ["f"], [], some 2, ""⟩
    (by decide) (by decide) (by decide)
    ⟨"e", "E", "", ["a"], [], [], some 3, ""⟩ 1
    ⟨"f", "F", "", ["b"], [], [], some 3, ""⟩ 1
    (Chain.step _ _ _ "e" 0 (Chain.refl _) (by decide) (by decide))
    (Chain.step _ _ _ "f" 0 (Chain.refl _) (by decide) (by decide))
    _ _ hq1 hq2
  rcases hb with hb | hb <;>
    norm_num [boxesDisjoint, cs2C7, cs3C7, cs1C7, xbC7, y2C7, y1C7, cfgC8] at hb

/-- C7: what the engine actually guarantees — in a forest (unique ids,
duplicate-free child lists, unique parents, child generation = parent
generation + 1) with positive node width and horizontal gap, every
person reachable from a generation-1 root has their resolved children
placed at consecutive slots one band down, the children's boxes are
pairwise disjoint, and the parent's horizontal midpoint equals the
midpoint of the children's combined span.  (The claim's stronger reading
— that the full *subtrees* of two siblings occupy disjoint spans — is
false: see `chartC7_exC7_fails`.) -/
theorem layout_block_disjoint_centered (cfg : LayoutConfig) (people : List Person)
    (fuel : Nat)
    (hids : (people.map (fun p => p.id)).Nodup)
    (hchn : ∀ p ∈ people, p.children.Nodup)
    (huniq : ∀ p ∈ people, ∀ q ∈ people, ∀ cid, cid ∈ p.children → cid ∈ q.children → p = q)
    (hgen : ∀ p ∈ people, ∀ cid ∈ p.children, ∀ c, mapGet people cid = some c →
      genOr1 c.generation = genOr1 p.generation + 1)
    (hW : 0 < cfg.nodeWidth) (hG : 0 < cfg.horizontalGap)
    (hrun : (layoutRender cfg people fuel).isSome = true) :
    ∀ root ∈ people, genOr1 root.generation = 1 →
    ∀ p n, Chain people root p n →
    0 < (childBlock people p).length →
    ∃ pp, posGet ((layoutRender cfg people fuel).getD []) p.id = some pp ∧
      (∀ j (hj : j < (childBlock people p).length),
        posGet ((layoutRender cfg people fuel).getD [])
            ((childBlock people p).get ⟨j, hj⟩).id =
          some ⟨pp.x - (((childBlock people p).length : ℚ) - 1) *
                  (cfg.nodeWidth + cfg.horizontalGap) / 2 +
                (j : ℚ) * (cfg.nodeWidth + cfg.horizontalGap),
                pp.y + cfg.nodeHeight + cfg.verticalGap⟩) ∧
      (∀ j k : ℕ, j < k → k < (childBlock people p).length →
        (pp.x - (((childBlock people p).length : ℚ) - 1) *
            (cfg.nodeWidth + cfg.horizontalGap) / 2 +
          (j : ℚ) * (cfg.nodeWidth + cfg.horizontalGap)) + cfg.nodeWidth <
        pp.x - (((childBlock people p).length : ℚ) - 1) *
            (cfg.nodeWidth + cfg.horizontalGap) / 2 +
          (k : ℚ) * (cfg.nodeWidth + cfg.horizontalGap)) ∧
      pp.x + cfg.nodeWidth / 2 =
        ((pp.x - (((childBlock people p).length : ℚ) - 1) *
            (cfg.nodeWidth + cfg.horizontalGap) / 2) +
         ((pp.x - (((childBlock people p).length : ℚ) - 1) *
              (cfg.nodeWidth + cfg.horizontalGap) / 2 +
            (((childBlock people p).length : ℚ) - 1) *
              (cfg.nodeWidth + cfg.horizontalGap)) + cfg.nodeWidth)) / 2 := by
  obtain ⟨out, heq⟩ := Option.isSome_iff_exists.mp hrun
  have hgd : (layoutRender cfg people fuel).getD [] = out := by
    rw [heq]
    rfl
  rw [hgd]
  intro root hroot hg1 p n hch hblen
  obtain ⟨b, c, a, d⟩ := calculatePositions_slots cfg people hids hchn huniq hgen fuel
    (people.filter fun q => genOr1 q.generation = 1) 1 0 0 [] out
    (fun q hq => (List.mem_filter.mp hq).1)
    (List.Nodup.sublist (List.Sublist.map _ (List.filter_sublist _)) hids)
    (fun q hq => by simpa using (List.mem_filter.mp hq).2)
    (fun q _ d n _ => rfl)
    heq
  have hrootq : root ∈ people.filter (fun q => genOr1 q.generation = 1) :=
    List.mem_filter.mpr ⟨hroot, by simp [hg1]⟩
  obtain ⟨pp, hpp, hblock⟩ := d root hrootq p n hch hblen
  refine ⟨pp, hpp, hblock, ?_, ?_⟩
  · intro j k hjk hk
    have h1 : (j : ℚ) + 1 ≤ (k : ℚ) := by exact_mod_cast hjk
    have h2 : cfg.nodeWidth + cfg.horizontalGap ≤
        ((k : ℚ) - (j : ℚ)) * (cfg.nodeWidth + cfg.horizontalGap) :=
      le_mul_of_one_le_left (by linarith) (by linarith)
    have h3 : (k : ℚ) * (cfg.nodeWidth + cfg.horizontalGap) -
        (j : ℚ) * (cfg.nodeWidth + cfg.horizontalGap) =
        ((k : ℚ) - (j : ℚ)) * (cfg.nodeWidth + cfg.horizontalGap) := by
      ring
    linarith [h2, h3]
  · ring

/-- A proper two-generation forest: root `r` with children `u`, `v`. -/
def rC7W : Person := ⟨"r", "R", "", [], ["u", "v"], [], some 1, ""⟩

def peopleC7W : List Person := [rC7W,
  ⟨"u", "U", "", ["r"], [], [], some 2, ""⟩,
  ⟨"v", "V", "", ["r"], [], [], some 2, ""⟩]

theorem layout_block_disjoint_centered_witness :
    (peopleC7W.map (fun p => p.id)).Nodup ∧
    (∀ p ∈ peopleC7W, p.children.Nodup) ∧
    (∀ p ∈ peopleC7W, ∀ q ∈ peopleC7W, ∀ cid, cid ∈ p.children → cid ∈ q.children → p = q) ∧
    (0 : ℚ) < cfgC8.nodeWidth ∧ (0 : ℚ) < cfgC8.horizontalGap ∧
    (layoutRender cfgC8 peopleC7W 5).isSome = true ∧
    (∃ pp, posGet ((layoutRender cfgC8 peopleC7W 5).getD []) rC7W.id = some pp ∧
      (∀ j (hj : j < (childBlock peopleC7W rC7W).length),
        posGet ((layoutRender cfgC8 peopleC7W 5).getD [])
            ((childBlock peopleC7W rC7W).get ⟨j, hj⟩).id =
          some ⟨pp.x - (((childBlock peopleC7W rC7W).length : ℚ) - 1) *
                  (cfgC8.nodeWidth + cfgC8.horizontalGap) / 2 +
                (j : ℚ) * (cfgC8.nodeWidth + cfgC8.horizontalGap),
                pp.y + cfgC8.nodeHeight + cfgC8.verticalGap⟩) ∧
      (∀ j k : ℕ, j < k → k < (childBlock peopleC7W rC7W).length →
        (pp.x - (((childBlock peopleC7W rC7W).length : ℚ) - 1) *
            (cfgC8.nodeWidth + cfgC8.horizontalGap) / 2 +
          (j : ℚ) * (cfgC8.nodeWidth + cfgC8.horizontalGap)) + cfgC8.nodeWidth <
        pp.x - (((childBlock peopleC7W rC7W).length : ℚ) - 1) *
            (cfgC8.nodeWidth + cfgC8.horizontalGap) / 2 +
          (k : ℚ) * (cfgC8.nodeWidth + cfgC8.horizontalGap)) ∧
      pp.x + cfgC8.nodeWidth / 2 =
        ((pp.x - (((childBlock peopleC7W rC7W).length : ℚ) - 1) *
            (cfgC8.nodeWidth + cfgC8.horizontalGap) / 2) +
         ((pp.x - (((childBlock peopleC7W rC7W).length : ℚ) - 1) *
              (cfgC8.nodeWidth + cfgC8.horizontalGap) / 2 +
            (((childBlock peopleC7W rC7W).length : ℚ) - 1) *
              (cfgC8.nodeWidth + cfgC8.horizontalGap)) + cfgC8.nodeWidth)) / 2) :=
  ⟨by decide, by decide, by decide, by decide, by decide, by decide,
    layout_block_disjoint_centered cfgC8 peopleC7W 5 (by decide) (by decide) (by decide)
      (by simp [peopleC7W, rC7W, mapGet, genOr1, List.forall_mem_cons])
      (by decide) (by decide) (by decide)
      rC7W (by decide) (by decide) rC7W 0 (Chain.refl rC7W) (by decide)⟩
